import Mathlib

/-!
Verification of the brainfuck interpreter repository against its design
specification.

The repository contains two complete realizations of the pipeline:

* the module variant (`src/parser.rs`, `src/memory.rs`, `src/token.rs`,
  `src/interpreter.rs`), embedded below in namespace `BF`;
* the library variant (`src/lib.rs`, used by `bin/enum_version.rs` and
  `bin/trait_version.rs`), embedded below in namespace `BFLib`.  This is the
  variant that implements the `one_time` (MultiplyOnce) loop specialization.

Modelling conventions, used consistently in both namespaces:

* `u8` cell arithmetic wraps modulo 256.  This is explicit in the source
  (`wrapping_add` / `wrapping_sub`); the compound-assignment forms in the
  `OffsetOp` / `OffsetMakeZeroOp` branches wrap the same way in release
  builds, which is how the interpreter is built and benchmarked.
* `u32` run-length counts are modelled as `Nat`.  A count only grows by one
  per source character, so overflow would need a four-gigabyte run of one
  character and is out of scope.
* `usize` pointer arithmetic: the module variant bounds-checks every pointer
  move itself, so plain `Nat` arithmetic is exact there.  Where the source
  computes an index with unchecked `usize` arithmetic (the offset nodes, and
  the pointer moves of the library variant) a wrapped result lands at least
  `2^64 - 2^32` away from zero, far past any realizable tape, so the cell
  access that consumes it fails; the library variant's pointer moves model
  the wrap exactly, modulo `2^64`.
* A Rust panic (out-of-bounds index, pointer bound violation, failed stdin
  read, `unreachable!`) is an `Except.error` carrying which panic fired.
  Non-terminating loops are handled by a fuel parameter: `.fuelOut` means
  the fuel budget was exhausted, which is distinct from every panic.
* Stdin is modelled as a list of pending bytes, stdout as the flushed list
  plus the in-memory `output_buffer`.
-/

/-- Panics and fuel exhaustion observable while executing an instruction
tree. -/
inductive RErr where
  | pointerUnderflow
  | pointerOverflow
  | indexOOB
  | inputFail
  | unreachablePanic
  | fuelOut
deriving DecidableEq, Repr

/-- Fatal errors of the builder / optimizer phase.  `unmatchedClose i`
carries the source index reported by the corresponding panic message. -/
inductive ParseErr where
  | unmatchedClose (i : Nat)
  | unmatchedOpen
  | ioLoop
  | emptyLoop
deriving DecidableEq, Repr

instance {ε α : Type} [DecidableEq ε] [DecidableEq α] : DecidableEq (Except ε α) := fun a b =>
  match a, b with
  | .ok x, .ok y =>
    if h : x = y then .isTrue (by rw [h]) else .isFalse (by intro hc; cases hc; exact h rfl)
  | .error x, .error y =>
    if h : x = y then .isTrue (by rw [h]) else .isFalse (by intro hc; cases hc; exact h rfl)
  | .ok _, .error _ => .isFalse (by intro hc; cases hc)
  | .error _, .ok _ => .isFalse (by intro hc; cases hc)

/-- Wrapping `u8` addition: the cell keeps the low byte of the sum
(`wrapping_add(c as u8)`). -/
def wrapAdd (v c : Nat) : Nat := (v + c % 256) % 256

/-- Wrapping `u8` subtraction (`wrapping_sub(c as u8)`), expressed as adding
the complement so the result stays a `Nat`. -/
def wrapSub (v c : Nat) : Nat := (v + (256 - c % 256)) % 256

namespace BF

/-! ## Tokens (`src/token.rs`) -/

inductive Token where
  | Plus
  | Minus
  | Left
  | Right
  | Dot
  | Comma
  | BracketOpen
  | BracketClose
  | Ignore
deriving DecidableEq, Repr

/-- `Token::convert_to_token`: total character-to-opcode map. -/
def Token.convertToToken (c : Char) : Token :=
  if c = '+' then .Plus
  else if c = '-' then .Minus
  else if c = '<' then .Left
  else if c = '>' then .Right
  else if c = '.' then .Dot
  else if c = ',' then .Comma
  else if c = '[' then .BracketOpen
  else if c = ']' then .BracketClose
  else .Ignore

/-! ## Instructions (`src/parser.rs`, enum `Expr` and `Offset`) -/

inductive Offset where
  | LeftInc (x y : Nat)
  | LeftDec (x y : Nat)
  | RightInc (x y : Nat)
  | RightDec (x y : Nat)
deriving DecidableEq, Repr

inductive Expr where
  | IncrementCount (n : Nat)
  | DecrementCount (n : Nat)
  | MoveLeftCount (n : Nat)
  | MoveRightCount (n : Nat)
  | Loop (es : List Expr)
  | Input
  | Output
  | MakeZero
  | InfiniteLoop (es : List Expr)
  | JumpOut (e : Expr)
  | OffsetOp (o : Offset)
  | OffsetMakeZeroOp (o : Offset)
deriving Repr

/-! ## Tape memory (`src/memory.rs`) -/

structure Memory where
  cells : List Nat
  pointer : Nat
  outputBuffer : List Nat
  flushed : List Nat
  inputStream : List Nat
deriving DecidableEq, Repr

/-- `Memory::new()`: 30000 zeroed cells, pointer at 0. -/
def Memory.new : Memory :=
  ⟨List.replicate 30000 0, 0, [], [], []⟩

/-- `Memory::val`: read the cell under the pointer; the `Vec` index panics
when the pointer is out of bounds. -/
def Memory.val? (m : Memory) : Option Nat := m.cells[m.pointer]?

/-- `Memory::increment_cell`. -/
def Memory.incrementCell (m : Memory) (c : Nat) : Except RErr Memory :=
  match m.cells[m.pointer]? with
  | none => .error .indexOOB
  | some v => .ok { m with cells := m.cells.set m.pointer (wrapAdd v c) }

/-- `Memory::decrement_cell`. -/
def Memory.decrementCell (m : Memory) (c : Nat) : Except RErr Memory :=
  match m.cells[m.pointer]? with
  | none => .error .indexOOB
  | some v => .ok { m with cells := m.cells.set m.pointer (wrapSub v c) }

/-- `Memory::move_pointer_right`: checks the new pointer against the tape
length and panics ("Pointer overflow") when it reaches or passes it. -/
def Memory.movePointerRight (m : Memory) (c : Nat) : Except RErr Memory :=
  if m.cells.length ≤ m.pointer + c then .error .pointerOverflow
  else .ok { m with pointer := m.pointer + c }

/-- `Memory::move_pointer_left`: panics ("Pointer underflow") when the step
exceeds the pointer. -/
def Memory.movePointerLeft (m : Memory) (c : Nat) : Except RErr Memory :=
  if m.pointer < c then .error .pointerUnderflow
  else .ok { m with pointer := m.pointer - c }

/-- `Memory::flush`: move the buffered output to stdout. -/
def Memory.flush (m : Memory) : Memory :=
  if m.outputBuffer.isEmpty then m
  else { m with outputBuffer := [], flushed := m.flushed ++ m.outputBuffer }

/-- `Memory::output_cell`: push the current cell onto the buffer, flushing
at the 64-byte threshold; the cell read panics when out of bounds. -/
def Memory.outputCell (m : Memory) : Except RErr Memory :=
  match m.cells[m.pointer]? with
  | none => .error .indexOOB
  | some v =>
    let m1 := { m with outputBuffer := m.outputBuffer ++ [v] }
    .ok (if 64 ≤ m1.outputBuffer.length then m1.flush else m1)

/-- `Memory::input_cell`: read one byte from stdin into the current cell;
an exhausted stream makes `read_exact` fail and the `unwrap` panic. -/
def Memory.inputCell (m : Memory) : Except RErr Memory :=
  match m.inputStream with
  | [] => .error .inputFail
  | b :: rest =>
    if m.pointer < m.cells.length then
      .ok { m with cells := m.cells.set m.pointer (b % 256), inputStream := rest }
    else .error .indexOOB

/-- Bounds-checked read-modify-write of one cell, shared by the offset
nodes (a Rust `Vec` index panics when out of range). -/
def modifyCell (cells : List Nat) (i : Nat) (f : Nat → Nat) : Except RErr (List Nat) :=
  match cells[i]? with
  | none => .error .indexOOB
  | some v => .ok (cells.set i (f v))

/-! ## Execution (`Expr::run` aka `Expr::effect` in `src/parser.rs`)

The source is plain recursion; loops that do not terminate simply never
return.  The embedding adds a fuel argument that bounds both recursion
depth and loop iterations: `.fuelOut` is reported when it runs out. -/

/-- `Expr::effect`, one instruction. -/
def Expr.effect : Nat → Expr → Memory → Except RErr Memory
  | 0, _, _ => .error .fuelOut
  | f + 1, e, m =>
    match e with
    | .IncrementCount n => m.incrementCell n
    | .DecrementCount n => m.decrementCell n
    | .MoveLeftCount n => m.movePointerLeft n
    | .MoveRightCount n => m.movePointerRight n
    | .Loop es =>
      match m.val? with
      | none => .error .indexOOB
      | some 0 => .ok m
      | some _ =>
        match es.foldlM (fun m e => effect f e m) m with
        | .error er => .error er
        | .ok m1 => effect f (.Loop es) m1
    | .Input => m.inputCell
    | .Output => m.outputCell
    | .MakeZero =>
      if m.pointer < m.cells.length then .ok { m with cells := m.cells.set m.pointer 0 }
      else .error .indexOOB
    | .InfiniteLoop es =>
      match es.foldlM (fun m e => effect f e m) m with
      | .error er => .error er
      | .ok m1 => effect f (.InfiniteLoop es) m1
    | .JumpOut e1 =>
      match m.val? with
      | none => .error .indexOOB
      | some 0 => .ok m
      | some _ =>
        match effect f e1 m with
        | .error er => .error er
        | .ok m1 => effect f (.JumpOut e1) m1
    | .OffsetOp o =>
      match o with
      | .LeftInc x y =>
        if x ≤ m.pointer then
          match modifyCell m.cells (m.pointer - x) (fun v => wrapAdd v y) with
          | .error er => .error er
          | .ok cs => .ok { m with cells := cs }
        else .error .indexOOB
      | .LeftDec x y =>
        if x ≤ m.pointer then
          match modifyCell m.cells (m.pointer - x) (fun v => wrapSub v y) with
          | .error er => .error er
          | .ok cs => .ok { m with cells := cs }
        else .error .indexOOB
      | .RightInc x y =>
        match modifyCell m.cells (m.pointer + x) (fun v => wrapAdd v y) with
        | .error er => .error er
        | .ok cs => .ok { m with cells := cs }
      | .RightDec x y =>
        match modifyCell m.cells (m.pointer + x) (fun v => wrapSub v y) with
        | .error er => .error er
        | .ok cs => .ok { m with cells := cs }
    | .OffsetMakeZeroOp o =>
      match m.val? with
      | none => .error .indexOOB
      | some v =>
        if v = 0 then .ok m
        else
          let cs0 := m.cells.set m.pointer 0
          match o with
          | .LeftInc x y =>
            if x ≤ m.pointer then
              match modifyCell cs0 (m.pointer - x) (fun w => wrapAdd w (y % 256 * v)) with
              | .error er => .error er
              | .ok cs => .ok { m with cells := cs }
            else .error .indexOOB
          | .LeftDec x y =>
            if x ≤ m.pointer then
              match modifyCell cs0 (m.pointer - x) (fun w => wrapSub w (y % 256 * v)) with
              | .error er => .error er
              | .ok cs => .ok { m with cells := cs }
            else .error .indexOOB
          | .RightInc x y =>
            match modifyCell cs0 (m.pointer + x) (fun w => wrapAdd w (y % 256 * v)) with
            | .error er => .error er
            | .ok cs => .ok { m with cells := cs }
          | .RightDec x y =>
            match modifyCell cs0 (m.pointer + x) (fun w => wrapSub w (y % 256 * v)) with
            | .error er => .error er
            | .ok cs => .ok { m with cells := cs }
termination_by structural f => f

/-- Running a whole instruction sequence in document order, as
`Executor::execute` and the loop bodies do. -/
def effectL (f : Nat) (es : List Expr) (m : Memory) : Except RErr Memory :=
  es.foldlM (fun m e => Expr.effect f e m) m

/-! ## Peephole optimizer (`Parser` in `src/parser.rs`) -/

/-- One window of `Parser::multiple_loop_expr_optimize`: the four fusable
`Move , arithmetic , opposite Move` shapes (same magnitude both sides). -/
def fuseTriple : Expr → Expr → Expr → Option Expr
  | .MoveLeftCount x, .DecrementCount n, .MoveRightCount y =>
    if x = y then some (.OffsetOp (.LeftDec x n)) else none
  | .MoveLeftCount x, .IncrementCount n, .MoveRightCount y =>
    if x = y then some (.OffsetOp (.LeftInc x n)) else none
  | .MoveRightCount x, .DecrementCount n, .MoveLeftCount y =>
    if x = y then some (.OffsetOp (.RightDec x n)) else none
  | .MoveRightCount x, .IncrementCount n, .MoveLeftCount y =>
    if x = y then some (.OffsetOp (.RightInc x n)) else none
  | _, _, _ => none

/-- The `while i + 2 < exprs.len()` scan of
`Parser::multiple_loop_expr_optimize`, in accumulator form: `done` holds
(reversed) the nodes at positions below the scan index `i`, the remaining
nodes start at `i`.  A matching window is spliced to one node and the index
advances by one (the new node moves into `done`); a non-matching window
also advances by one (its first node moves into `done`).  The scan stops
when fewer than three nodes remain. -/
def fuseScan (done : List Expr) : List Expr → List Expr
  | a :: b :: c :: tail =>
    match fuseTriple a b c with
    | some op => fuseScan (op :: done) tail
    | none => fuseScan (a :: done) (b :: c :: tail)
  | rest => done.reverse ++ rest

/-- `Parser::multiple_loop_expr_optimize`. -/
def multipleLoopExprOptimize (exprs : List Expr) : Expr :=
  if exprs.length < 3 then .Loop exprs
  else .Loop (fuseScan [] exprs)

/-- `Parser::single_loop_expr_optimize`: single-node collapses, the
`[Loop(_)] => InfiniteLoop` branch, dispatch of longer bodies to the scan,
and the fatal "Infinite loop of IO operations detected" exit. -/
def singleLoopExprOptimize (exprs : List Expr) : Except ParseErr Expr :=
  match exprs with
  | [.DecrementCount _] | [.IncrementCount _] => .ok .MakeZero
  | [.MoveLeftCount n] => .ok (.JumpOut (.MoveLeftCount n))
  | [.MoveRightCount n] => .ok (.JumpOut (.MoveRightCount n))
  | [.Loop es] => .ok (.InfiniteLoop [.Loop es])
  | _ => if exprs.length > 1 then .ok (multipleLoopExprOptimize exprs) else .error .ioLoop

/-- `Parser::optimize`: run the single/multiple passes, then fuse an exactly
two-node `Loop` of a unit Decrement and an OffsetOp (either order) into
`OffsetMakeZeroOp`. -/
def optimize (exprs : List Expr) : Except ParseErr Expr :=
  match singleLoopExprOptimize exprs with
  | .error e => .error e
  | .ok e =>
    match e with
    | .Loop es =>
      match es with
      | [.DecrementCount 1, .OffsetOp o] => .ok (.OffsetMakeZeroOp o)
      | [.OffsetOp o, .DecrementCount 1] => .ok (.OffsetMakeZeroOp o)
      | _ => .ok (.Loop es)
    | e1 => .ok e1

/-! ## Structural builder (`Expr::from_tokens` in `src/parser.rs`)

The accumulator `cur` and every saved scope on the stack are kept in
reverse order (head = most recently pushed instruction), which is what the
source's `last_mut()` run-length folding looks at; scopes are reversed back
when they close and at the end of input. -/

/-- Run-length folding of one opcode into the (reversed) current scope:
the arms mirror the source's `match current_exprs.last_mut()`. -/
def pushOp (t : Token) (cur : List Expr) : List Expr :=
  match t, cur with
  | .Plus, .IncrementCount n :: rest => .IncrementCount (n + 1) :: rest
  | .Plus, _ => .IncrementCount 1 :: cur
  | .Minus, .DecrementCount n :: rest => .DecrementCount (n + 1) :: rest
  | .Minus, _ => .DecrementCount 1 :: cur
  | .Right, .MoveRightCount n :: rest => .MoveRightCount (n + 1) :: rest
  | .Right, _ => .MoveRightCount 1 :: cur
  | .Left, .MoveLeftCount n :: rest => .MoveLeftCount (n + 1) :: rest
  | .Left, _ => .MoveLeftCount 1 :: cur
  | .Dot, _ => .Output :: cur
  | .Comma, _ => .Input :: cur
  | _, _ => cur

/-- The `for (i, c) in tokens.enumerate()` loop of `Expr::from_tokens`,
returning the scope stack and current accumulator left when the input runs
out (or the fatal error that stopped it). -/
def runP : List (Nat × Token) → List (List Expr) → List Expr →
    Except ParseErr (List (List Expr) × List Expr)
  | [], stack, cur => .ok (stack, cur)
  | (i, t) :: rest, stack, cur =>
    match t with
    | .BracketOpen => runP rest (cur :: stack) []
    | .BracketClose =>
      match stack with
      | [] => .error (.unmatchedClose i)
      | outer :: stack1 =>
        match optimize cur.reverse with
        | .error e => .error e
        | .ok e => runP rest stack1 (e :: outer)
    | t1 => runP rest stack (pushOp t1 cur)

/-- `Expr::from_tokens`: the scan above followed by the final unmatched
opening bracket check. -/
def Expr.fromTokens (ts : List Token) : Except ParseErr (List Expr) :=
  match runP ts.enum [] [] with
  | .error e => .error e
  | .ok (stack, cur) => if stack.isEmpty then .ok cur.reverse else .error .unmatchedOpen

/-- The whole pipeline of `Interpreter::run` (`src/interpreter.rs`): parse,
then execute on a fresh tape; the executor is reached only when parsing
succeeded. -/
def runProgram (fuel : Nat) (ts : List Token) : Except (ParseErr ⊕ RErr) Memory :=
  match Expr.fromTokens ts with
  | .error e => .error (.inl e)
  | .ok es =>
    match effectL fuel es Memory.new with
    | .error er => .error (.inr er)
    | .ok m => .ok m.flush

/-! ## Views of the code used to state the claims -/

/-- The four opcodes subject to run-length folding. -/
def arithTok (t : Token) : Bool :=
  match t with
  | .Plus | .Minus | .Left | .Right => true
  | _ => false

/-- The counted instruction a single opcode denotes (unit count 1). -/
def cntE (t : Token) (n : Nat) : Expr :=
  match t with
  | .Plus => .IncrementCount n
  | .Minus => .DecrementCount n
  | .Right => .MoveRightCount n
  | _ => .MoveLeftCount n

/-- Applying one opcode directly to the tape, with no folding: the memory
operation the corresponding unit-count instruction performs. -/
def unitEffect (t : Token) (m : Memory) : Except RErr Memory :=
  match t with
  | .Plus => m.incrementCell 1
  | .Minus => m.decrementCell 1
  | .Left => m.movePointerLeft 1
  | .Right => m.movePointerRight 1
  | _ => .ok m

/-- Applying a sequence of opcodes one at a time. -/
def unitRun : List Token → Memory → Except RErr Memory
  | [], m => .ok m
  | t :: ts, m =>
    match unitEffect t m with
    | .error e => .error e
    | .ok m1 => unitRun ts m1

/-- Whether a node is a generic (gating-cell-checked) `Loop`. -/
def isGenericLoop : Expr → Bool
  | .Loop _ => true
  | _ => false

/-- The two-node shapes `Parser::optimize` fuses into `OffsetMakeZeroOp`. -/
def offsetPairFusable : List Expr → Bool
  | [.DecrementCount 1, .OffsetOp _] => true
  | [.OffsetOp _, .DecrementCount 1] => true
  | _ => false

/-- The body a multi-node scope carries after the offset-fusion step
(`Parser::multiple_loop_expr_optimize` returns `Loop` of exactly this). -/
def loopBodyAfterFusion (exprs : List Expr) : List Expr :=
  if exprs.length < 3 then exprs else fuseScan [] exprs

/-- The absolute cell index an offset node touches. -/
def offTarget (o : Offset) (p : Nat) : Nat :=
  match o with
  | .LeftInc x _ | .LeftDec x _ => p - x
  | .RightInc x _ | .RightDec x _ => p + x

/-- The left-offset guard: `pointer - x` only denotes a tape index when
`x ≤ pointer` (otherwise the `usize` subtraction wraps out of the tape). -/
def offOk (o : Offset) (p : Nat) : Prop :=
  match o with
  | .LeftInc x _ | .LeftDec x _ => x ≤ p
  | .RightInc _ _ | .RightDec _ _ => True

instance (o : Offset) (p : Nat) : Decidable (offOk o p) := by
  unfold offOk; cases o <;> infer_instance

/-- The new value an `OffsetOp` gives the cell it touches. -/
def offApply (o : Offset) (v : Nat) : Nat :=
  match o with
  | .LeftInc _ y | .RightInc _ y => wrapAdd v y
  | .LeftDec _ y | .RightDec _ y => wrapSub v y

/-- The new value an `OffsetMakeZeroOp` gives the target cell when the
current cell held `v`: the delta is scaled by `v`, in `u8` arithmetic. -/
def offApplyScaled (o : Offset) (v w : Nat) : Nat :=
  match o with
  | .LeftInc _ y | .RightInc _ y => wrapAdd w (y % 256 * v)
  | .LeftDec _ y | .RightDec _ y => wrapSub w (y % 256 * v)

/-- Positivity of the counts inside an `Offset`: both the move distance and
the arithmetic delta. -/
def posOffset : Offset → Bool
  | .LeftInc x y | .LeftDec x y | .RightInc x y | .RightDec x y =>
    decide (1 ≤ x) && decide (1 ≤ y)

mutual

/-- Every run-length count stored anywhere in a node is at least 1. -/
def posB : Expr → Bool
  | .IncrementCount n | .DecrementCount n => decide (1 ≤ n)
  | .MoveLeftCount n | .MoveRightCount n => decide (1 ≤ n)
  | .Loop es | .InfiniteLoop es => posList es
  | .Input | .Output | .MakeZero => true
  | .JumpOut e => posB e
  | .OffsetOp o | .OffsetMakeZeroOp o => posOffset o

/-- `posB` over a whole sequence. -/
def posList : List Expr → Bool
  | [] => true
  | e :: es => posB e && posList es

end

end BF

namespace BFLib

/-! ## The library variant (`src/lib.rs`)

Its `Memory` leaves the right move unchecked and only guards the left move
against a pointer that is already 0; a bigger left step wraps the `usize`
pointer, which is modelled exactly, modulo `2^64`. -/

/-- `usize::MAX + 1`. -/
def USIZE : Nat := 18446744073709551616

/-- Unchecked `usize` addition (wraps in release builds). -/
def usizeAdd (a b : Nat) : Nat := (a + b) % USIZE

/-- Unchecked `usize` subtraction (wraps in release builds), written with
the complement so it stays in `Nat`. -/
def usizeSub (a b : Nat) : Nat := (a + (USIZE - b % USIZE)) % USIZE

/-- `v as u8` for a signed 32-bit value: the low byte, two's complement. -/
def i8byte (v : Int) : Nat := (v % 256).toNat

/-- `o as usize` for a signed 32-bit value: sign-extend, then bit-cast. -/
def i32AsUsize (o : Int) : Nat := (o % (18446744073709551616 : Int)).toNat

structure Memory where
  cells : List Nat
  pointer : Nat
  outputBuffer : List Nat
  flushed : List Nat
  inputStream : List Nat
deriving DecidableEq, Repr

/-- `Memory::new()`. -/
def Memory.new : Memory :=
  ⟨List.replicate 30000 0, 0, [], [], []⟩

/-- `Memory::val`. -/
def Memory.val? (m : Memory) : Option Nat := m.cells[m.pointer]?

/-- `Memory::increment_cell`. -/
def Memory.incrementCell (m : Memory) (c : Nat) : Except RErr Memory :=
  match m.cells[m.pointer]? with
  | none => .error .indexOOB
  | some v => .ok { m with cells := m.cells.set m.pointer (wrapAdd v c) }

/-- `Memory::decrement_cell`. -/
def Memory.decrementCell (m : Memory) (c : Nat) : Except RErr Memory :=
  match m.cells[m.pointer]? with
  | none => .error .indexOOB
  | some v => .ok { m with cells := m.cells.set m.pointer (wrapSub v c) }

/-- `Memory::move_pointer_right`: unchecked `self.pointer += c`. -/
def Memory.movePointerRight (m : Memory) (c : Nat) : Memory :=
  { m with pointer := usizeAdd m.pointer c }

/-- `Memory::move_pointer_left`: panics ("Pointer underflow") only when the
pointer is already 0; otherwise `self.pointer -= c`, which wraps when
`c` exceeds the pointer. -/
def Memory.movePointerLeft (m : Memory) (c : Nat) : Except RErr Memory :=
  if m.pointer < 1 then .error .pointerUnderflow
  else .ok { m with pointer := usizeSub m.pointer c }

/-- `Memory::flush`. -/
def Memory.flush (m : Memory) : Memory :=
  if m.outputBuffer.isEmpty then m
  else { m with outputBuffer := [], flushed := m.flushed ++ m.outputBuffer }

/-- `Memory::output_cell` (64-byte flush threshold). -/
def Memory.outputCell (m : Memory) : Except RErr Memory :=
  match m.cells[m.pointer]? with
  | none => .error .indexOOB
  | some v =>
    let m1 := { m with outputBuffer := m.outputBuffer ++ [v] }
    .ok (if 64 ≤ m1.outputBuffer.length then m1.flush else m1)

/-- `Memory::input_cell`. -/
def Memory.inputCell (m : Memory) : Except RErr Memory :=
  match m.inputStream with
  | [] => .error .inputFail
  | b :: rest =>
    if m.pointer < m.cells.length then
      .ok { m with cells := m.cells.set m.pointer (b % 256), inputStream := rest }
    else .error .indexOOB

/-! ## Instructions (`enum Expr` in `src/lib.rs`) -/

inductive Expr where
  | IncrementCount (n : Nat)
  | DecrementCount (n : Nat)
  | MoveRightCount (n : Nat)
  | MoveLeftCount (n : Nat)
  | Loop (exprs : List Expr) (oneTime : Bool)
  | Input
  | Output
  | MakeZero
  | JumpOut (e : Expr)
  | OffsetOp (o : Int) (v : Int)
  | OffsetMakeZeroOp (o : Int) (v : Int)
deriving Repr

/-- Bounds-checked read-modify-write of one cell. -/
def modifyCell (cells : List Nat) (i : Nat) (f : Nat → Nat) : Except RErr (List Nat) :=
  match cells[i]? with
  | none => .error .indexOOB
  | some v => .ok (cells.set i (f v))

/-- The single scaled pass of the `one_time` branch of `Expr::run_effect`:
each Increment/Decrement delta is multiplied by `times` (as `u32`; the cast
to `u8` keeps the low byte, and `256` divides `2^32`, so `Nat`
multiplication is exact here), each move is applied literally, and any
other node hits the `unreachable!`. -/
def runScaledPass (times : Nat) : List Expr → Memory → Except RErr Memory
  | [], m => .ok m
  | e :: es, m =>
    match
      (match e with
       | .IncrementCount c => m.incrementCell (c * times)
       | .DecrementCount c => m.decrementCell (c * times)
       | .MoveLeftCount n => m.movePointerLeft n
       | .MoveRightCount n => .ok (m.movePointerRight n)
       | _ => .error .unreachablePanic) with
    | .error er => .error er
    | .ok m1 => runScaledPass times es m1

/-- `Expr::run_effect` (`src/lib.rs`), with fuel for the loops. -/
def runEffect : Nat → Expr → Memory → Except RErr Memory
  | 0, _, _ => .error .fuelOut
  | f + 1, e, m =>
    match e with
    | .IncrementCount c => m.incrementCell c
    | .DecrementCount c => m.decrementCell c
    | .MoveRightCount c => .ok (m.movePointerRight c)
    | .MoveLeftCount c => m.movePointerLeft c
    | .Output => m.outputCell
    | .Input => m.inputCell
    | .Loop es oneTime =>
      match oneTime with
      | false =>
        match m.val? with
        | none => .error .indexOOB
        | some 0 => .ok m
        | some _ =>
          match es.foldlM (fun m e => runEffect f e m) m with
          | .error er => .error er
          | .ok m1 => runEffect f (.Loop es false) m1
      | true =>
        match m.val? with
        | none => .error .indexOOB
        | some 0 => .ok m
        | some v => runScaledPass v es m
    | .MakeZero =>
      if m.pointer < m.cells.length then .ok { m with cells := m.cells.set m.pointer 0 }
      else .error .indexOOB
    | .JumpOut e1 =>
      match m.val? with
      | none => .error .indexOOB
      | some 0 => .ok m
      | some _ =>
        match
          (match e1 with
           | .MoveLeftCount n => m.movePointerLeft n
           | .MoveRightCount n => .ok (m.movePointerRight n)
           | _ => .error .unreachablePanic) with
        | .error er => .error er
        | .ok m1 => runEffect f (.JumpOut e1) m1
    | .OffsetOp o dv =>
      match modifyCell m.cells (usizeAdd m.pointer (i32AsUsize o)) (fun w => wrapAdd w (i8byte dv)) with
      | .error er => .error er
      | .ok cs => .ok { m with cells := cs }
    | .OffsetMakeZeroOp o dv =>
      match m.val? with
      | none => .error .indexOOB
      | some v =>
        if v = 0 then .ok m
        else
          match modifyCell (m.cells.set m.pointer 0) (usizeAdd m.pointer (i32AsUsize o))
              (fun w => wrapAdd w (i8byte dv * v)) with
          | .error er => .error er
          | .ok cs => .ok { m with cells := cs }
termination_by structural f => f

/-- Executing a body as a `Generic` loop would, for exactly `k`
iterations: the body sequence is re-evaluated `k` times. -/
def runNTimes (fuel : Nat) (es : List Expr) : Nat → Memory → Except RErr Memory
  | 0, m => .ok m
  | k + 1, m =>
    match es.foldlM (fun m e => runEffect fuel e m) m with
    | .error er => .error er
    | .ok m1 => runNTimes fuel es k m1

/-! ## `Interpreter::optimize` (`src/lib.rs`) -/

/-- The four arithmetic/movement node shapes. -/
def isSimpleOp : Expr → Bool
  | .IncrementCount _ | .DecrementCount _ | .MoveLeftCount _ | .MoveRightCount _ => true
  | _ => false

/-- Signed sum of the move counts of a body (the MultiplyOnce
pointer-neutrality measure). -/
def netMove : List Expr → Int
  | [] => 0
  | .MoveLeftCount n :: es => netMove es - n
  | .MoveRightCount n :: es => netMove es + n
  | _ :: es => netMove es

/-- The `for e in exprs.iter()` scan of the `3..` arm: accumulates the
signed offset, breaking with `jump_out = true` at the first node that is
not Increment/Decrement/MoveLeft/MoveRight.  Returns `(jump_out, offset)`. -/
def neutralScan (acc : Int) : List Expr → Bool × Int
  | [] => (false, acc)
  | e :: es =>
    match e with
    | .MoveLeftCount n => neutralScan (acc - n) es
    | .MoveRightCount n => neutralScan (acc + n) es
    | .IncrementCount _ | .DecrementCount _ => neutralScan acc es
    | _ => (true, acc)

/-- One window of the offset-fusion scan of `Interpreter::optimize`. -/
def fuseTriple : Expr → Expr → Expr → Option Expr
  | .MoveLeftCount x, .DecrementCount n, .MoveRightCount y =>
    if x = y then some (.OffsetOp (0 - (x : Int)) (0 - (n : Int))) else none
  | .MoveLeftCount x, .IncrementCount n, .MoveRightCount y =>
    if x = y then some (.OffsetOp (0 - (x : Int)) (n : Int)) else none
  | .MoveRightCount x, .DecrementCount n, .MoveLeftCount y =>
    if x = y then some (.OffsetOp (x : Int) (0 - (n : Int))) else none
  | .MoveRightCount x, .IncrementCount n, .MoveLeftCount y =>
    if x = y then some (.OffsetOp (x : Int) (n : Int)) else none
  | _, _, _ => none

/-- The `while i + 2 < exprs.len()` fusion scan of `Interpreter::optimize`,
in accumulator form (`done` reversed, scan advances one position whether or
not the window fused); the flag records whether any window fused. -/
def libFuse (done : List Expr) : List Expr → Bool → List Expr × Bool
  | a :: b :: c :: tail, matched =>
    match fuseTriple a b c with
    | some op => libFuse (op :: done) tail true
    | none => libFuse (a :: done) (b :: c :: tail) matched
  | rest, matched => (done.reverse ++ rest, matched)

/-- `Interpreter::optimize`: the `loop { match exprs.len() { .. } }`.  The
fuel argument bounds the number of re-scan passes; every `continue` removes
at least two nodes, so `exprs.length` passes always suffice and the
zero-fuel fallback is unreachable from `libOptimize`. -/
def libOptimizeGo : Nat → List Expr → Except ParseErr Expr
  | _, [] => .error .emptyLoop
  | _, [e] =>
    match e with
    | .DecrementCount _ | .IncrementCount _ => .ok .MakeZero
    | .MoveLeftCount n => .ok (.JumpOut (.MoveLeftCount n))
    | .MoveRightCount n => .ok (.JumpOut (.MoveRightCount n))
    | _ => .error .ioLoop
  | _, [a, b] =>
    match a, b with
    | .DecrementCount 1, .OffsetOp o v => .ok (.OffsetMakeZeroOp o v)
    | .OffsetOp o v, .DecrementCount 1 => .ok (.OffsetMakeZeroOp o v)
    | a1, b1 => .ok (.Loop [a1, b1] false)
  | g, a :: b :: c :: rest =>
    let scan := neutralScan 0 (a :: b :: c :: rest)
    if !scan.1 && scan.2 == 0 then .ok (.Loop (a :: b :: c :: rest) true)
    else
      let fused := libFuse [] (a :: b :: c :: rest) false
      if fused.2 then
        match g with
        | 0 => .ok (.Loop fused.1 false)
        | g1 + 1 => libOptimizeGo g1 fused.1
      else .ok (.Loop fused.1 false)

/-- `Interpreter::optimize`, fueled by the body length. -/
def libOptimize (exprs : List Expr) : Except ParseErr Expr :=
  libOptimizeGo exprs.length exprs

/-! ## Proof-side characterization of straight-line (Inc/Dec/Move) bodies

The pointer trajectory of such a body is independent of the cell contents,
and each arithmetic node adds a constant (mod 256) to the cell at a
position determined only by the starting pointer.  `simTraj` computes the
trajectory (including which panic fires first, if any), `applyScaled`
accumulates the cell deltas scaled by `s`. -/

/-- Pointer effect and panic behaviour of one simple node. -/
def simStep (len : Nat) : Expr → Nat → Except RErr Nat
  | .IncrementCount _, p | .DecrementCount _, p =>
    if p < len then .ok p else .error .indexOOB
  | .MoveLeftCount c, p => if p < 1 then .error .pointerUnderflow else .ok (usizeSub p c)
  | .MoveRightCount c, p => .ok (usizeAdd p c)
  | _, _ => .error .unreachablePanic

/-- Pointer trajectory of a simple body. -/
def simTraj (len : Nat) : List Expr → Nat → Except RErr Nat
  | [], p => .ok p
  | e :: es, p =>
    match simStep len e p with
    | .error er => .error er
    | .ok p1 => simTraj len es p1

/-- Add `k` (mod 256) to the cell at index `i`; out-of-range indices leave
the list unchanged (they are ruled out whenever this is used). -/
def addK (cells : List Nat) (i k : Nat) : List Nat :=
  match cells[i]? with
  | none => cells
  | some v => cells.set i ((v + k) % 256)

/-- The cell deltas of a simple body, scaled by `s`, laid down along the
trajectory from pointer `p`. -/
def applyScaled (s : Nat) : List Expr → Nat → List Nat → List Nat
  | [], _, cells => cells
  | .IncrementCount c :: es, p, cells => applyScaled s es p (addK cells p (c * s % 256))
  | .DecrementCount c :: es, p, cells => applyScaled s es p (addK cells p (256 - c * s % 256))
  | .MoveLeftCount c :: es, p, cells => applyScaled s es (usizeSub p c) cells
  | .MoveRightCount c :: es, p, cells => applyScaled s es (usizeAdd p c) cells
  | _ :: es, p, cells => applyScaled s es p cells

end BFLib

/-! # Generic `Except` helpers -/

theorem except_error_bind {ε α β : Type} (e : ε) (f : α → Except ε β) :
    (Except.error e >>= f) = .error e := rfl

theorem except_ok_bind {ε α β : Type} (a : α) (f : α → Except ε β) :
    (Except.ok a >>= f) = f a := rfl

theorem except_match_id {ε α : Type} (x : Except ε α) :
    (match x with
     | .error e => (.error e : Except ε α)
     | .ok a => .ok a) = x := by
  cases x <;> rfl

/-! # Theorems about the module variant (`src/parser.rs`, `src/memory.rs`) -/

namespace BF

theorem effectL_nil (f : Nat) (m : Memory) : effectL f [] m = .ok m := rfl

theorem effectL_cons (f : Nat) (e : Expr) (es : List Expr) (m : Memory) :
    effectL f (e :: es) m =
      match Expr.effect f e m with
      | .error er => .error er
      | .ok m1 => effectL f es m1 := by
  show (Expr.effect f e m >>= fun m1 => effectL f es m1) = _
  cases Expr.effect f e m <;> rfl

theorem effectL_single (f : Nat) (e : Expr) (m : Memory) :
    effectL f [e] m = Expr.effect f e m := by
  rw [effectL_cons]
  cases Expr.effect f e m <;> rfl

theorem effectL_append (f : Nat) (xs ys : List Expr) (m : Memory) :
    effectL f (xs ++ ys) m =
      match effectL f xs m with
      | .error er => .error er
      | .ok m1 => effectL f ys m1 := by
  induction xs generalizing m with
  | nil => rw [List.nil_append, effectL_nil]
  | cons x xs ih =>
    rw [List.cons_append, effectL_cons, effectL_cons]
    cases Expr.effect f x m <;> simp [ih]

/-- C9: pointer movement is checked at execution time by the module
variant's memory: a left move fails with the pointer-underflow panic
exactly when `pointer < c` (so one MoveLeft at pointer 0 fails rather than
wrapping), a right move fails with the pointer-overflow panic exactly when
`pointer + c` reaches or passes the tape length, and a successful move
changes the pointer by exactly `c` and nothing else. -/
theorem pointer_moves_checked (m : Memory) (c fuel : Nat) (hf : 1 ≤ fuel) :
    (Expr.effect fuel (.MoveLeftCount c) m = .error .pointerUnderflow ↔ m.pointer < c) ∧
    (c ≤ m.pointer →
      Expr.effect fuel (.MoveLeftCount c) m = .ok { m with pointer := m.pointer - c }) ∧
    (Expr.effect fuel (.MoveRightCount c) m = .error .pointerOverflow ↔
      m.cells.length ≤ m.pointer + c) ∧
    (m.pointer + c < m.cells.length →
      Expr.effect fuel (.MoveRightCount c) m = .ok { m with pointer := m.pointer + c }) := by
  obtain ⟨f, rfl⟩ : ∃ f, fuel = f + 1 := ⟨fuel - 1, by omega⟩
  refine ⟨?_, ?_, ?_, ?_⟩ <;>
    simp only [Expr.effect, Memory.movePointerLeft, Memory.movePointerRight]
  · split <;> simp_all
  · intro h; rw [if_neg (by omega)]
  · split <;> simp_all
  · intro h; rw [if_neg (by omega)]

/-- Witness for C9: the boundary program of the spec, one MoveLeft at
pointer 0 on a one-cell tape, fails with the underflow panic. -/
theorem pointer_moves_checked_witness :
    Expr.effect 1 (.MoveLeftCount 1) ⟨[0], 0, [], [], []⟩ = .error .pointerUnderflow :=
  ((pointer_moves_checked ⟨[0], 0, [], [], []⟩ 1 1 (by decide)).1).mpr (by decide)

/-- C7: the offset-fusion scan advances one position per step whether or
not the window at the current position fused (a fused window contributes
its single replacement node, an unfused one its first node), each of the
four `Move , Increment|Decrement , opposite Move` window shapes with equal
magnitudes produces the corresponding single `OffsetOp`, and executing an
`OffsetOp` rewrites only the cell at `pointer ± x` (by `±y` mod 256)
without moving the pointer. -/
theorem offset_fusion_scan :
    (∀ done a b c tail op, fuseTriple a b c = some op →
        fuseScan done (a :: b :: c :: tail) = fuseScan (op :: done) tail) ∧
    (∀ done a b c tail, fuseTriple a b c = none →
        fuseScan done (a :: b :: c :: tail) = fuseScan (a :: done) (b :: c :: tail)) ∧
    (∀ x n, fuseTriple (.MoveLeftCount x) (.DecrementCount n) (.MoveRightCount x) =
        some (.OffsetOp (.LeftDec x n))) ∧
    (∀ x n, fuseTriple (.MoveLeftCount x) (.IncrementCount n) (.MoveRightCount x) =
        some (.OffsetOp (.LeftInc x n))) ∧
    (∀ x n, fuseTriple (.MoveRightCount x) (.DecrementCount n) (.MoveLeftCount x) =
        some (.OffsetOp (.RightDec x n))) ∧
    (∀ x n, fuseTriple (.MoveRightCount x) (.IncrementCount n) (.MoveLeftCount x) =
        some (.OffsetOp (.RightInc x n))) ∧
    (∀ o m v fuel, 1 ≤ fuel → offOk o m.pointer →
        m.cells[offTarget o m.pointer]? = some v →
        Expr.effect fuel (.OffsetOp o) m =
          .ok { m with cells := m.cells.set (offTarget o m.pointer) (offApply o v) } ∧
        ∀ j, j ≠ offTarget o m.pointer →
          (m.cells.set (offTarget o m.pointer) (offApply o v))[j]? = m.cells[j]?) := by
  refine ⟨?_, ?_, ?_, ?_, ?_, ?_, ?_⟩
  · intro done a b c tail op h; rw [fuseScan, h]
  · intro done a b c tail h; rw [fuseScan, h]
  · intro x n; simp [fuseTriple]
  · intro x n; simp [fuseTriple]
  · intro x n; simp [fuseTriple]
  · intro x n; simp [fuseTriple]
  · intro o m v fuel hf hok hv
    obtain ⟨f, rfl⟩ : ∃ f, fuel = f + 1 := ⟨fuel - 1, by omega⟩
    refine ⟨?_, ?_⟩
    · cases o <;>
        simp_all [Expr.effect, modifyCell, offTarget, offOk, offApply]
    · intro j hj
      exact List.getElem?_set_ne (by omega)

/-- Witness for C7: fusing and running `< - >` at distance 1 over a
two-cell tape subtracts 1 (mod 256) from the left neighbour only. -/
theorem offset_fusion_scan_witness :
    Expr.effect 1 (.OffsetOp (.LeftDec 1 1)) ⟨[0, 7], 1, [], [], []⟩ =
      .ok ⟨[255, 7], 1, [], [], []⟩ :=
  ((offset_fusion_scan.2.2.2.2.2.2 (.LeftDec 1 1) ⟨[0, 7], 1, [], [], []⟩ 0 1
      (by decide) (by decide) (by decide)).1)

/-- C6: a scope whose body the earlier passes leave as exactly a unit-count
Decrement next to an `OffsetOp` (either order) is fused by
`Parser::optimize` into `OffsetMakeZeroOp`; executing it with a nonzero
current cell `v` zeroes the current cell and then adds `delta * v`
(mod 256, with the sign of the variant) to the cell at the offset target,
and with current cell 0 it changes nothing.  The target value `w` is read
after the zeroing, which is what the source does. -/
theorem zero_scatter_fusion :
    (∀ exprs o, singleLoopExprOptimize exprs = .ok (.Loop [.DecrementCount 1, .OffsetOp o]) →
        optimize exprs = .ok (.OffsetMakeZeroOp o)) ∧
    (∀ exprs o, singleLoopExprOptimize exprs = .ok (.Loop [.OffsetOp o, .DecrementCount 1]) →
        optimize exprs = .ok (.OffsetMakeZeroOp o)) ∧
    (∀ o m fuel, 1 ≤ fuel → m.val? = some 0 →
        Expr.effect fuel (.OffsetMakeZeroOp o) m = .ok m) ∧
    (∀ o m v w fuel, 1 ≤ fuel → m.val? = some v → v ≠ 0 → offOk o m.pointer →
        (m.cells.set m.pointer 0)[offTarget o m.pointer]? = some w →
        Expr.effect fuel (.OffsetMakeZeroOp o) m =
          .ok { m with cells :=
            (m.cells.set m.pointer 0).set (offTarget o m.pointer) (offApplyScaled o v w) }) := by
  refine ⟨?_, ?_, ?_, ?_⟩
  · intro exprs o h; rw [optimize, h]
  · intro exprs o h; rw [optimize, h]
  · intro o m fuel hf hv
    obtain ⟨f, rfl⟩ : ∃ f, fuel = f + 1 := ⟨fuel - 1, by omega⟩
    simp only [Expr.effect, Memory.val?] at hv ⊢
    rw [hv]
    rfl
  · intro o m v w fuel hf hv hv0 hok hw
    obtain ⟨f, rfl⟩ : ∃ f, fuel = f + 1 := ⟨fuel - 1, by omega⟩
    cases o <;>
      simp_all [Expr.effect, Memory.val?, modifyCell, offTarget, offOk, offApplyScaled]

/-- Witness for C6: running the fused form of `[->>+<<]` style scatter with
current cell 3 and delta 2 at offset +1: cell 0 drops to 0, cell 1 gains 6. -/
theorem zero_scatter_fusion_witness :
    Expr.effect 1 (.OffsetMakeZeroOp (.RightInc 1 2)) ⟨[3, 5], 0, [], [], []⟩ =
      .ok ⟨[0, 11], 0, [], [], []⟩ :=
  zero_scatter_fusion.2.2.2 (.RightInc 1 2) ⟨[3, 5], 0, [], [], []⟩ 3 5 1
    (by decide) (by decide) (by decide) (by decide) (by decide)

theorem singleLoop_cons_cons (a b : Expr) (rest : List Expr) :
    singleLoopExprOptimize (a :: b :: rest) =
      .ok (multipleLoopExprOptimize (a :: b :: rest)) := by
  unfold singleLoopExprOptimize
  split
  · rename_i h; simp at h
  · rename_i h; simp at h
  · rename_i h; simp at h
  · rename_i h; simp at h
  · rename_i h; simp at h
  · rw [if_pos (by simp)]

theorem multiple_is_loop (exprs : List Expr) :
    ∃ es, multipleLoopExprOptimize exprs = .Loop es := by
  unfold multipleLoopExprOptimize
  split
  · exact ⟨_, rfl⟩
  · exact ⟨_, rfl⟩

theorem multiple_eq_fusion (exprs : List Expr) :
    multipleLoopExprOptimize exprs = .Loop (loopBodyAfterFusion exprs) := by
  rw [multipleLoopExprOptimize, loopBodyAfterFusion]
  split <;> rfl

/-- C4 counterexample: a scope whose body is exactly one generic `Loop`
node is not turned into a generic `Loop` by `Parser::optimize` — the
`[Loop(_)] => InfiniteLoop` arm produces an `InfiniteLoop` node, whose
execution never rechecks the gating cell: on a tape whose gating cell is 0
the generic form finishes immediately while the `InfiniteLoop` form spins
until the fuel runs out. -/
theorem single_loop_scope_becomes_infinite :
    optimize [.Loop [.Output, .Input]] = .ok (.InfiniteLoop [.Loop [.Output, .Input]]) ∧
    isGenericLoop (.InfiniteLoop [.Loop [.Output, .Input]]) = false ∧
    Expr.effect 1 (.Loop [.Loop [.Output, .Input]]) ⟨[0], 0, [], [], []⟩ =
      .ok ⟨[0], 0, [], [], []⟩ ∧
    Expr.effect 300 (.InfiniteLoop [.Loop [.Output, .Input]]) ⟨[0], 0, [], [], []⟩ =
      .error .fuelOut := by
  refine ⟨rfl, rfl, by decide, by decide⟩

/-- C4 as amended: every scope body of two or more nodes whose post-fusion
form is not the fusable Decrement/OffsetOp pair becomes a generic `Loop`
node carrying that post-fusion body (`InfiniteLoop` can only arise from a
body that is exactly one `Loop` node); a generic `Loop` checks the gating
cell before every pass — it stops at once when the cell is 0 and otherwise
runs the body once and re-enters itself. -/
theorem fallback_generic_loop :
    (∀ exprs b, optimize exprs = .ok (.InfiniteLoop b) →
        b = exprs ∧ ∃ x, exprs = [.Loop x]) ∧
    (∀ exprs, 2 ≤ exprs.length → offsetPairFusable (loopBodyAfterFusion exprs) = false →
        optimize exprs = .ok (.Loop (loopBodyAfterFusion exprs))) ∧
    (∀ es m fuel, 1 ≤ fuel → m.val? = some 0 → Expr.effect fuel (.Loop es) m = .ok m) ∧
    (∀ es m f v, m.val? = some v → v ≠ 0 →
        Expr.effect (f + 1) (.Loop es) m =
          match effectL f es m with
          | .error er => .error er
          | .ok m1 => Expr.effect f (.Loop es) m1) := by
  refine ⟨?_, ?_, ?_, ?_⟩
  · intro exprs b h
    match exprs with
    | [] => exact absurd h (by rw [optimize]; intro hc; cases hc)
    | [e] =>
      cases e <;> simp_all [optimize, singleLoopExprOptimize]
      rename_i es
      exact ⟨es, h.symm⟩
    | a :: b1 :: rest =>
      obtain ⟨es, hm⟩ := multiple_is_loop (a :: b1 :: rest)
      rw [optimize, singleLoop_cons_cons, hm] at h
      replace h : (match es with
        | [Expr.DecrementCount 1, Expr.OffsetOp o] => Except.ok (Expr.OffsetMakeZeroOp o)
        | [Expr.OffsetOp o, Expr.DecrementCount 1] => Except.ok (Expr.OffsetMakeZeroOp o)
        | _ => (Except.ok (Expr.Loop es) : Except ParseErr Expr)) = .ok (.InfiniteLoop b) := h
      split at h <;> simp at h
  · intro exprs h2 hfus
    match exprs with
    | a :: b1 :: rest =>
      rw [optimize, singleLoop_cons_cons, multiple_eq_fusion]
      show (match loopBodyAfterFusion (a :: b1 :: rest) with
            | [Expr.DecrementCount 1, Expr.OffsetOp o] => Except.ok (Expr.OffsetMakeZeroOp o)
            | [Expr.OffsetOp o, Expr.DecrementCount 1] => Except.ok (Expr.OffsetMakeZeroOp o)
            | _ => Except.ok (Expr.Loop (loopBodyAfterFusion (a :: b1 :: rest)))) = _
      split
      · rename_i heq; rw [heq] at hfus; exact absurd hfus (by simp [offsetPairFusable])
      · rename_i heq; rw [heq] at hfus; exact absurd hfus (by simp [offsetPairFusable])
      · rfl
  · intro es m fuel hf hv
    obtain ⟨f, rfl⟩ : ∃ f, fuel = f + 1 := ⟨fuel - 1, by omega⟩
    simp only [Expr.effect]
    rw [hv]
  · intro es m f v hv hv0
    obtain ⟨w, rfl⟩ : ∃ w, v = w + 1 := ⟨v - 1, by omega⟩
    simp only [Expr.effect]
    rw [hv]
    rfl

/-- Witness for the amended C4: the two-node body `. .` stays a generic
loop, which with gating cell 0 finishes at once leaving the tape as is. -/
theorem fallback_generic_loop_witness :
    optimize [.Output, .Output] = .ok (.Loop [.Output, .Output]) ∧
    Expr.effect 1 (.Loop [.Output, .Output]) ⟨[0], 0, [], [], []⟩ =
      .ok ⟨[0], 0, [], [], []⟩ :=
  ⟨fallback_generic_loop.2.1 [.Output, .Output] (by decide) (by decide),
   fallback_generic_loop.2.2.1 [.Output, .Output] ⟨[0], 0, [], [], []⟩ 1
     (by decide) (by decide)⟩

theorem set_self_of_getElem? {α : Type} (l : List α) (i : Nat) (a : α)
    (h : l[i]? = some a) : l.set i a = l := by
  induction l generalizing i with
  | nil => simp at h
  | cons x xs ih =>
    cases i with
    | zero => simp_all
    | succ j =>
      simp only [List.getElem?_cons_succ] at h
      simp [ih j h]

theorem cast_mod_byte (n : Nat) : ((n % 256 : ℕ) : ZMod 256) = (n : ZMod 256) :=
  ZMod.natCast_mod n 256

theorem cast_complement_byte (n : Nat) :
    ((256 - n % 256 : ℕ) : ZMod 256) = -(n : ZMod 256) := by
  rw [Nat.cast_sub (le_of_lt (Nat.mod_lt _ (by norm_num)))]
  rw [cast_mod_byte]
  have h256 : ((256 : ℕ) : ZMod 256) = 0 := ZMod.natCast_self 256
  push_cast at h256 ⊢
  rw [h256]
  ring

/-- For a step that is an invertible addition mod 256, some multiple of it
takes any start value to 0 within 256 steps. -/
theorem exists_hit_zero (v d : Nat) (hu : IsUnit (d : ZMod 256)) :
    ∃ r, r < 256 ∧ (v + r * d) % 256 = 0 := by
  refine ⟨((-(v : ZMod 256)) * (d : ZMod 256)⁻¹).val, ZMod.val_lt _, ?_⟩
  rw [← Nat.dvd_iff_mod_eq_zero, ← ZMod.natCast_zmod_eq_zero_iff_dvd]
  push_cast
  rw [ZMod.natCast_zmod_val]
  rw [mul_assoc, ZMod.inv_mul_of_unit _ hu]
  ring

/-- A generic loop whose single-node body adds `d` (mod 256) to the gating
cell on each pass ends with the gating cell at 0 and nothing else changed,
given a step multiple that reaches 0 and enough fuel. -/
theorem loop_single_arith_run (bodyE : Expr) (d : Nat)
    (hstep : ∀ (f : Nat) (m : Memory) (w : Nat), 1 ≤ f → m.val? = some w →
      Expr.effect f bodyE m = .ok { m with cells := m.cells.set m.pointer ((w + d) % 256) }) :
    ∀ (r fuel : Nat) (m : Memory) (w : Nat), m.val? = some w → w < 256 →
      (w + r * d) % 256 = 0 → r + 2 ≤ fuel →
      Expr.effect fuel (.Loop [bodyE]) m = .ok { m with cells := m.cells.set m.pointer 0 } := by
  intro r
  induction r with
  | zero =>
    intro fuel m w hw hw8 hz hf
    obtain ⟨f, rfl⟩ : ∃ f, fuel = f + 1 := ⟨fuel - 1, by omega⟩
    have hw0 : w = 0 := by omega
    subst hw0
    simp only [Expr.effect]
    rw [hw, show m.cells.set m.pointer 0 = m.cells from set_self_of_getElem? _ _ _ hw]
  | succ r ih =>
    intro fuel m w hw hw8 hz hf
    obtain ⟨f, rfl⟩ : ∃ f, fuel = f + 1 := ⟨fuel - 1, by omega⟩
    by_cases hw0 : w = 0
    · subst hw0
      simp only [Expr.effect]
      rw [hw, show m.cells.set m.pointer 0 = m.cells from set_self_of_getElem? _ _ _ hw]
    · obtain ⟨w1, rfl⟩ : ∃ w1, w = w1 + 1 := ⟨w - 1, by omega⟩
      have hp : m.pointer < m.cells.length := by
        by_contra hc
        rw [Memory.val?, List.getElem?_eq_none (by omega)] at hw
        cases hw
      simp only [Expr.effect]
      rw [hw]
      rw [List.foldlM_cons, hstep f m (w1 + 1) (by omega) hw]
      rw [except_ok_bind, List.foldlM_nil]
      have hval1 : (Memory.val? { m with cells := m.cells.set m.pointer ((w1 + 1 + d) % 256) }) =
          some ((w1 + 1 + d) % 256) := by
        simp [Memory.val?, List.getElem?_set_self hp]
      have hz1 : ((w1 + 1 + d) % 256 + r * d) % 256 = 0 := by
        rw [Nat.succ_mul] at hz
        have ht : (w1 + 1 + (r * d + d)) % 256 = 0 := by
          rw [show w1 + 1 + (r * d + d) = w1 + 1 + (r * d + d) from rfl]; omega
        generalize r * d = t at *
        omega
      have hrun := ih f _ _ hval1 (Nat.mod_lt _ (by norm_num)) hz1 (by omega)
      show Expr.effect f (.Loop [bodyE])
          { m with cells := m.cells.set m.pointer ((w1 + 1 + d) % 256) } = _
      rw [hrun]
      simp [List.set_set]

theorem dec_step (n f : Nat) (m : Memory) (w : Nat) (hf : 1 ≤ f) (hw : m.val? = some w) :
    Expr.effect f (.DecrementCount n) m =
      .ok { m with cells := m.cells.set m.pointer ((w + (256 - n % 256)) % 256) } := by
  obtain ⟨f1, rfl⟩ : ∃ f1, f = f1 + 1 := ⟨f - 1, by omega⟩
  simp only [Expr.effect, Memory.decrementCell, Memory.val?] at hw ⊢
  rw [hw]
  rfl

theorem inc_step (n f : Nat) (m : Memory) (w : Nat) (hf : 1 ≤ f) (hw : m.val? = some w) :
    Expr.effect f (.IncrementCount n) m =
      .ok { m with cells := m.cells.set m.pointer ((w + n % 256) % 256) } := by
  obtain ⟨f1, rfl⟩ : ∃ f1, f = f1 + 1 := ⟨f - 1, by omega⟩
  simp only [Expr.effect, Memory.incrementCell, Memory.val?] at hw ⊢
  rw [hw]
  rfl

/-- C5: a single Increment(n)/Decrement(n) loop body with `n` coprime to
256 always drives the gating cell to 0 (terminating within the given
fuel), leaving everything else unchanged, and `MakeZero` — which the
optimizer substitutes for exactly these bodies — produces the same end
state for every 8-bit cell value `v`. -/
theorem makezero_loop_equiv (n v : Nat) (m : Memory) (fuel : Nat)
    (hcop : Nat.gcd n 256 = 1) (hv : m.val? = some v) (hv8 : v < 256) (hf : 258 ≤ fuel) :
    optimize [.DecrementCount n] = .ok .MakeZero ∧
    optimize [.IncrementCount n] = .ok .MakeZero ∧
    Expr.effect fuel (.Loop [.DecrementCount n]) m =
      .ok { m with cells := m.cells.set m.pointer 0 } ∧
    Expr.effect fuel (.Loop [.IncrementCount n]) m =
      .ok { m with cells := m.cells.set m.pointer 0 } ∧
    Expr.effect fuel .MakeZero m = .ok { m with cells := m.cells.set m.pointer 0 } := by
  have hun : IsUnit ((n : ℕ) : ZMod 256) := (ZMod.isUnit_iff_coprime n 256).mpr hcop
  have hp : m.pointer < m.cells.length := by
    by_contra hc
    rw [Memory.val?, List.getElem?_eq_none (by omega)] at hv
    cases hv
  refine ⟨rfl, rfl, ?_, ?_, ?_⟩
  · have hud : IsUnit ((256 - n % 256 : ℕ) : ZMod 256) := by
      rw [cast_complement_byte]; exact hun.neg
    obtain ⟨r, hr, hz⟩ := exists_hit_zero v (256 - n % 256) hud
    exact loop_single_arith_run (.DecrementCount n) (256 - n % 256)
      (fun f m w hf hw => dec_step n f m w hf hw) r fuel m v hv hv8 hz (by omega)
  · have hui : IsUnit ((n % 256 : ℕ) : ZMod 256) := by
      rw [cast_mod_byte]; exact hun
    obtain ⟨r, hr, hz⟩ := exists_hit_zero v (n % 256) hui
    exact loop_single_arith_run (.IncrementCount n) (n % 256)
      (fun f m w hf hw => inc_step n f m w hf hw) r fuel m v hv hv8 hz (by omega)
  · obtain ⟨f, rfl⟩ : ∃ f, fuel = f + 1 := ⟨fuel - 1, by omega⟩
    simp only [Expr.effect]
    rw [if_pos hp]

/-- Witness for C5: `[-]` on a cell holding 2 reaches 0 in two passes, and
so does `MakeZero`. -/
theorem makezero_loop_equiv_witness :
    Expr.effect 258 (.Loop [.DecrementCount 1]) ⟨[2, 9], 0, [], [], []⟩ =
      .ok ⟨[0, 9], 0, [], [], []⟩ ∧
    Expr.effect 258 .MakeZero ⟨[2, 9], 0, [], [], []⟩ = .ok ⟨[0, 9], 0, [], [], []⟩ :=
  ⟨(makezero_loop_equiv 1 2 ⟨[2, 9], 0, [], [], []⟩ 258 (by decide) (by decide)
      (by decide) (by decide)).2.2.1,
   (makezero_loop_equiv 1 2 ⟨[2, 9], 0, [], [], []⟩ 258 (by decide) (by decide)
      (by decide) (by decide)).2.2.2.2⟩

theorem incCell_succ (n : Nat) (m : Memory) :
    m.incrementCell (n + 1) = m.incrementCell n >>= fun m1 => m1.incrementCell 1 := by
  unfold Memory.incrementCell
  cases hv : m.cells[m.pointer]? with
  | none => rfl
  | some v =>
    have hp : m.pointer < m.cells.length := by
      by_contra hc
      rw [List.getElem?_eq_none (by omega)] at hv
      cases hv
    simp only [except_ok_bind, List.getElem?_set_self hp, List.set_set, wrapAdd]
    have harith : (v + (n + 1) % 256) % 256 = ((v + n % 256) % 256 + 1 % 256) % 256 := by omega
    rw [harith]

theorem decCell_succ (n : Nat) (m : Memory) :
    m.decrementCell (n + 1) = m.decrementCell n >>= fun m1 => m1.decrementCell 1 := by
  unfold Memory.decrementCell
  cases hv : m.cells[m.pointer]? with
  | none => rfl
  | some v =>
    have hp : m.pointer < m.cells.length := by
      by_contra hc
      rw [List.getElem?_eq_none (by omega)] at hv
      cases hv
    simp only [except_ok_bind, List.getElem?_set_self hp, List.set_set, wrapSub]
    have harith : (v + (256 - (n + 1) % 256)) % 256 =
        ((v + (256 - n % 256)) % 256 + (256 - 1 % 256)) % 256 := by omega
    rw [harith]

theorem moveL_succ (n : Nat) (m : Memory) :
    m.movePointerLeft (n + 1) = m.movePointerLeft n >>= fun m1 => m1.movePointerLeft 1 := by
  unfold Memory.movePointerLeft
  by_cases h1 : m.pointer < n
  · rw [if_pos (by omega : m.pointer < n + 1), if_pos h1]
    rfl
  · rw [if_neg h1, except_ok_bind]
    by_cases h2 : m.pointer < n + 1
    · rw [if_pos h2]
      show _ = if m.pointer - n < 1 then _ else _
      rw [if_pos (by omega)]
    · rw [if_neg h2]
      show _ = if m.pointer - n < 1 then _ else _
      rw [if_neg (by omega)]
      have harith : m.pointer - (n + 1) = m.pointer - n - 1 := by omega
      rw [harith]

theorem moveR_succ (n : Nat) (m : Memory) :
    m.movePointerRight (n + 1) = m.movePointerRight n >>= fun m1 => m1.movePointerRight 1 := by
  unfold Memory.movePointerRight
  by_cases h1 : m.cells.length ≤ m.pointer + n
  · rw [if_pos (by omega : m.cells.length ≤ m.pointer + (n + 1)), if_pos h1]
    rfl
  · rw [if_neg h1, except_ok_bind]
    show _ = if m.cells.length ≤ m.pointer + n + 1 then _ else _
    by_cases h2 : m.cells.length ≤ m.pointer + (n + 1)
    · rw [if_pos h2, if_pos (by omega)]
    · rw [if_neg h2, if_neg (by omega)]
      have harith : m.pointer + (n + 1) = m.pointer + n + 1 := by omega
      rw [harith]

theorem unit_cntE (t : Token) (ht : arithTok t = true) (f : Nat) (hf : 1 ≤ f) (m : Memory) :
    Expr.effect f (cntE t 1) m = unitEffect t m := by
  obtain ⟨f1, rfl⟩ : ∃ f1, f = f1 + 1 := ⟨f - 1, by omega⟩
  cases t <;> first
    | rfl
    | simp [arithTok] at ht

theorem cnt_succ (t : Token) (ht : arithTok t = true) (f n : Nat) (hf : 1 ≤ f) (m : Memory) :
    Expr.effect f (cntE t (n + 1)) m =
      Expr.effect f (cntE t n) m >>= fun m1 => Expr.effect f (cntE t 1) m1 := by
  obtain ⟨f1, rfl⟩ : ∃ f1, f = f1 + 1 := ⟨f - 1, by omega⟩
  cases t
  case Plus => exact incCell_succ n m
  case Minus => exact decCell_succ n m
  case Left => exact moveL_succ n m
  case Right => exact moveR_succ n m
  all_goals simp [arithTok] at ht

theorem pushOp_cases (t : Token) (cur : List Expr) (ht : arithTok t = true) :
    pushOp t cur = cntE t 1 :: cur ∨
      ∃ n rest, cur = cntE t n :: rest ∧ pushOp t cur = cntE t (n + 1) :: rest := by
  cases t <;>
    first
      | (rcases cur with _ | ⟨e, rest⟩ <;>
          first
            | exact .inl rfl
            | (cases e <;>
                first
                  | exact .inl rfl
                  | exact .inr ⟨_, rest, rfl, rfl⟩))
      | exact absurd ht (by simp [arithTok])

theorem snd_mem_of_mem_enumFrom {α : Type} (ts : List α) :
    ∀ (k : Nat) (p : Nat × α), p ∈ List.enumFrom k ts → p.2 ∈ ts := by
  induction ts with
  | nil => intro k p hp; simp [List.enumFrom] at hp
  | cons x xs ih =>
    intro k p hp
    rw [List.enumFrom] at hp
    rcases List.mem_cons.mp hp with h | h
    · rw [h]; exact List.mem_cons_self _ _
    · exact List.mem_cons_of_mem _ (ih _ _ h)

theorem enumFrom_foldl_pushOp (ts : List Token) :
    ∀ (k : Nat) (init : List Expr),
      (List.enumFrom k ts).foldl (fun c p => pushOp p.2 c) init =
        ts.foldl (fun c t => pushOp t c) init := by
  induction ts with
  | nil => intro k init; rfl
  | cons t ts ih =>
    intro k init
    rw [List.enumFrom, List.foldl_cons, List.foldl_cons, ih]

theorem runP_arith :
    ∀ (en : List (Nat × Token)) (st : List (List Expr)) (cur : List Expr),
      (∀ p ∈ en, arithTok p.2 = true) →
      runP en st cur = .ok (st, en.foldl (fun c p => pushOp p.2 c) cur) := by
  intro en
  induction en with
  | nil => intro st cur h; rfl
  | cons p rest ih =>
    intro st cur h
    obtain ⟨i, t⟩ := p
    have ht : arithTok t = true := h (i, t) (List.mem_cons_self _ _)
    have hrest : ∀ q ∈ rest, arithTok q.2 = true := fun q hq => h q (List.mem_cons_of_mem _ hq)
    rw [List.foldl_cons]
    cases t <;>
      first
        | (show runP rest st (pushOp _ cur) = _; rw [ih st _ hrest])
        | exact absurd ht (by simp [arithTok])

theorem except_bind_congr {ε α β : Type} (x : Except ε α) (g h : α → Except ε β)
    (hgh : ∀ a, g a = h a) : x >>= g = x >>= h := by
  cases x
  · rfl
  · exact hgh _

theorem unitRun_cons (t : Token) (ts : List Token) (m : Memory) :
    unitRun (t :: ts) m = unitEffect t m >>= unitRun ts := by
  rw [unitRun]
  cases unitEffect t m <;> rfl

theorem effectL_cons_bind (f : Nat) (e : Expr) (es : List Expr) (m : Memory) :
    effectL f (e :: es) m = Expr.effect f e m >>= fun m1 => effectL f es m1 := rfl

theorem effectL_append_bind (f : Nat) (xs ys : List Expr) (m : Memory) :
    effectL f (xs ++ ys) m = effectL f xs m >>= fun m1 => effectL f ys m1 := by
  simp [effectL]

theorem effectL_single_bind (f : Nat) (e : Expr) (m : Memory) :
    effectL f [e] m = Expr.effect f e m := by
  rw [effectL_cons_bind]
  cases Expr.effect f e m <;> rfl

theorem fold_units (f : Nat) (hf : 1 ≤ f) :
    ∀ (ts : List Token) (cur : List Expr) (m : Memory),
      (∀ t ∈ ts, arithTok t = true) →
      effectL f (ts.foldl (fun c t => pushOp t c) cur).reverse m =
        effectL f cur.reverse m >>= fun m1 => unitRun ts m1 := by
  intro ts
  induction ts with
  | nil =>
    intro cur m hts
    rw [List.foldl_nil]
    cases effectL f cur.reverse m <;> rfl
  | cons t ts ih =>
    intro cur m hts
    have ht : arithTok t = true := hts t (List.mem_cons_self _ _)
    have hts1 : ∀ u ∈ ts, arithTok u = true := fun u hu => hts u (List.mem_cons_of_mem _ hu)
    rw [List.foldl_cons, ih (pushOp t cur) m hts1]
    have hpush : effectL f (pushOp t cur).reverse m =
        effectL f cur.reverse m >>= fun m1 => unitEffect t m1 := by
      rcases pushOp_cases t cur ht with hnew | ⟨n, rest, hcur, hmerge⟩
      · rw [hnew, List.reverse_cons, effectL_append_bind]
        exact except_bind_congr _ _ _ fun m1 => by
          rw [effectL_single_bind, unit_cntE t ht f hf]
      · rw [hmerge, hcur, List.reverse_cons, List.reverse_cons, effectL_append_bind,
          effectL_append_bind, bind_assoc]
        exact except_bind_congr _ _ _ fun m1 => by
          rw [effectL_single_bind, effectL_single_bind, cnt_succ t ht f n hf]
          exact except_bind_congr _ _ _ fun m2 => unit_cntE t ht f hf m2
    rw [hpush, bind_assoc]
    exact except_bind_congr _ _ _ fun m1 => (unitRun_cons t ts m1).symm

/-- C3: for any bracket-free sequence of arithmetic/movement opcodes, the
builder succeeds and executing its run-length-folded instruction list is
the same (cells, pointer, buffers, and panic behaviour alike) as applying
each unit opcode individually, one at a time. -/
theorem runlength_fold_equiv (ts : List Token) (hts : ∀ t ∈ ts, arithTok t = true)
    (m : Memory) (fuel : Nat) (hf : 1 ≤ fuel) :
    ∃ es, Expr.fromTokens ts = .ok es ∧ effectL fuel es m = unitRun ts m := by
  refine ⟨(ts.foldl (fun c t => pushOp t c) []).reverse, ?_, ?_⟩
  · rw [Expr.fromTokens, runP_arith ts.enum [] []
      (fun p hp => hts p.2 (snd_mem_of_mem_enumFrom ts 0 p hp))]
    rw [show ts.enum = List.enumFrom 0 ts from rfl, enumFrom_foldl_pushOp]
    rfl
  · have h := fold_units fuel hf ts [] m hts
    rw [List.reverse_nil] at h
    rw [h]
    rfl

/-- Witness for C3: the folded form of `++>-` equals its unit-by-unit run. -/
theorem runlength_fold_equiv_witness :
    ∃ es, Expr.fromTokens [.Plus, .Plus, .Right, .Minus] = .ok es ∧
      effectL 1 es ⟨[0, 0], 0, [], [], []⟩ =
        unitRun [.Plus, .Plus, .Right, .Minus] ⟨[0, 0], 0, [], [], []⟩ :=
  runlength_fold_equiv [.Plus, .Plus, .Right, .Minus] (by decide) ⟨[0, 0], 0, [], [], []⟩ 1
    (by decide)

theorem posList_append (xs ys : List Expr) :
    posList (xs ++ ys) = (posList xs && posList ys) := by
  induction xs with
  | nil => simp [posList]
  | cons e es ih => simp [posList, ih, Bool.and_assoc]

theorem posList_reverse (xs : List Expr) : posList xs.reverse = posList xs := by
  induction xs with
  | nil => rfl
  | cons e es ih =>
    rw [List.reverse_cons, posList_append, ih]
    simp [posList, Bool.and_comm]

theorem pushOp_pos (t : Token) (cur : List Expr) (h : posList cur = true) :
    posList (pushOp t cur) = true := by
  cases t <;>
    rcases cur with _ | ⟨e, rest⟩ <;>
    (try cases e) <;>
    simp_all [pushOp, posList, posB]

theorem fuseTriple_pos (a b c op : Expr) (hft : fuseTriple a b c = some op)
    (ha : posB a = true) (hb : posB b = true) (hc : posB c = true) : posB op = true := by
  unfold fuseTriple at hft
  split at hft <;>
    first
      | (cases hft)
      | (split at hft
         · cases hft
           simp_all [posB, posOffset]
         · cases hft)

theorem fuseScan_pos (k : Nat) : ∀ (rest done : List Expr), rest.length ≤ k →
    posList done = true → posList rest = true → posList (fuseScan done rest) = true := by
  induction k with
  | zero =>
    intro rest done hlen hd hr
    match rest with
    | [] =>
      show posList (done.reverse ++ []) = true
      rw [posList_append, posList_reverse]
      simp [hd, posList]
  | succ k ih =>
    intro rest done hlen hd hr
    match rest with
    | [] =>
      show posList (done.reverse ++ []) = true
      rw [posList_append, posList_reverse]
      simp [hd, posList]
    | [a] =>
      show posList (done.reverse ++ [a]) = true
      rw [posList_append, posList_reverse]
      simp_all [posList]
    | [a, b] =>
      show posList (done.reverse ++ [a, b]) = true
      rw [posList_append, posList_reverse]
      simp_all [posList]
    | a :: b :: c :: tail =>
      simp only [posList, Bool.and_eq_true] at hr
      obtain ⟨ha, hb, hc, htail⟩ := hr
      rw [fuseScan]
      cases hft : fuseTriple a b c with
      | some op =>
        apply ih tail (op :: done) (by simp at hlen ⊢; omega)
        · simp [posList, hd, fuseTriple_pos a b c op hft ha hb hc]
        · exact htail
      | none =>
        apply ih (b :: c :: tail) (a :: done) (by simp at hlen ⊢; omega)
        · simp [posList, hd, ha]
        · simp [posList, hb, hc, htail]

theorem singleLoop_pos (es : List Expr) (e : Expr) (hp : posList es = true)
    (h : singleLoopExprOptimize es = .ok e) : posB e = true := by
  match es with
  | [] => cases h
  | [x] =>
    cases x <;> simp_all [singleLoopExprOptimize, posList, posB] <;>
      (try cases h) <;> simp_all [posB, posList]
  | a :: b :: rest =>
    rw [singleLoop_cons_cons] at h
    cases h
    rw [multiple_eq_fusion]
    show posList (loopBodyAfterFusion (a :: b :: rest)) = true
    rw [loopBodyAfterFusion]
    split
    · exact hp
    · exact fuseScan_pos (a :: b :: rest).length _ _ (le_refl _) rfl hp

theorem optimize_pos (es : List Expr) (e : Expr) (hp : posList es = true)
    (h : optimize es = .ok e) : posB e = true := by
  rw [optimize] at h
  cases hs : singleLoopExprOptimize es with
  | error er => rw [hs] at h; cases h
  | ok e1 =>
    rw [hs] at h
    have he1 : posB e1 = true := singleLoop_pos es e1 hp hs
    match e1, h with
    | .Loop es1, h =>
      replace h : (match es1 with
        | [Expr.DecrementCount 1, Expr.OffsetOp o] => Except.ok (Expr.OffsetMakeZeroOp o)
        | [Expr.OffsetOp o, Expr.DecrementCount 1] => Except.ok (Expr.OffsetMakeZeroOp o)
        | _ => (Except.ok (Expr.Loop es1) : Except ParseErr Expr)) = .ok e := h
      split at h <;> cases h <;> simp_all [posB, posList, posOffset]
    | .IncrementCount n, h => cases h; exact he1
    | .DecrementCount n, h => cases h; exact he1
    | .MoveLeftCount n, h => cases h; exact he1
    | .MoveRightCount n, h => cases h; exact he1
    | .Input, h => cases h; exact he1
    | .Output, h => cases h; exact he1
    | .MakeZero, h => cases h; exact he1
    | .InfiniteLoop es1, h => cases h; exact he1
    | .JumpOut x, h => cases h; exact he1
    | .OffsetOp o, h => cases h; exact he1
    | .OffsetMakeZeroOp o, h => cases h; exact he1

theorem runP_pos :
    ∀ (en : List (Nat × Token)) (st : List (List Expr)) (cur : List Expr),
      (∀ s ∈ st, posList s = true) → posList cur = true →
      ∀ stack1 cur1, runP en st cur = .ok (stack1, cur1) →
        (∀ s ∈ stack1, posList s = true) ∧ posList cur1 = true := by
  intro en
  induction en with
  | nil =>
    intro st cur hst hcur stack1 cur1 h
    cases h
    exact ⟨hst, hcur⟩
  | cons p rest ih =>
    intro st cur hst hcur stack1 cur1 h
    obtain ⟨i, t⟩ := p
    cases t
    case BracketOpen =>
      refine ih (cur :: st) [] ?_ rfl stack1 cur1 h
      intro s hs
      rcases List.mem_cons.mp hs with h1 | h1
      · rw [h1]; exact hcur
      · exact hst s h1
    case BracketClose =>
      match st, hst with
      | [], _ => cases h
      | outer :: st1, hst =>
        revert h
        show (match optimize cur.reverse with
              | .error e => (.error e : Except ParseErr (List (List Expr) × List Expr))
              | .ok e => runP rest st1 (e :: outer)) = _ → _
        cases hop : optimize cur.reverse with
        | error er => intro h; cases h
        | ok e =>
          intro h
          refine ih st1 (e :: outer) (fun s hs => hst s (List.mem_cons_of_mem _ hs)) ?_
            stack1 cur1 h
          simp only [posList, Bool.and_eq_true]
          refine ⟨optimize_pos cur.reverse e ?_ hop, hst outer (List.mem_cons_self _ _)⟩
          rw [posList_reverse]
          exact hcur
    all_goals exact ih st (pushOp _ cur) hst (pushOp_pos _ cur hcur) stack1 cur1 h

/-- C10: every counted node anywhere in a parsed instruction tree — at top
level, inside `Loop`/`InfiniteLoop` bodies, inside `JumpOut`, and in both
fields of the offset nodes — carries a count of at least 1. -/
theorem counted_nodes_positive (ts : List Token) (es : List Expr)
    (h : Expr.fromTokens ts = .ok es) : posList es = true := by
  rw [Expr.fromTokens] at h
  cases hrp : runP ts.enum [] [] with
  | error er => rw [hrp] at h; cases h
  | ok r =>
    obtain ⟨stack1, cur1⟩ := r
    rw [hrp] at h
    replace h : (if stack1.isEmpty then Except.ok cur1.reverse
        else Except.error ParseErr.unmatchedOpen) = Except.ok es := h
    have hpos := runP_pos ts.enum [] [] (by intro s hs; cases hs) rfl stack1 cur1 hrp
    by_cases hemp : stack1.isEmpty
    · rw [if_pos hemp] at h
      cases h
      rw [posList_reverse]
      exact hpos.2
    · rw [if_neg hemp] at h
      cases h

/-- Witness for C10: the tree of `+[->+<]` (an increment and a fused
zero-and-scatter node) carries only positive counts. -/
theorem counted_nodes_positive_witness :
    posList [.IncrementCount 1, .OffsetMakeZeroOp (.RightInc 1 1)] = true :=
  counted_nodes_positive
    [.Plus, .BracketOpen, .Minus, .Right, .Plus, .Left, .BracketClose]
    [.IncrementCount 1, .OffsetMakeZeroOp (.RightInc 1 1)] (by rfl)

theorem singleLoop_err (es : List Expr) (e : ParseErr)
    (h : singleLoopExprOptimize es = .error e) : e = .ioLoop := by
  unfold singleLoopExprOptimize at h
  split at h
  · cases h
  · cases h
  · cases h
  · cases h
  · cases h
  · split at h
    · cases h
    · cases h
      rfl

theorem optimize_err (es : List Expr) (e : ParseErr) (h : optimize es = .error e) :
    e = .ioLoop := by
  rw [optimize] at h
  cases hs : singleLoopExprOptimize es with
  | error er =>
    rw [hs] at h
    cases h
    exact singleLoop_err es _ hs
  | ok e1 =>
    rw [hs] at h
    exfalso
    match e1, h with
    | .Loop es1, h =>
      replace h : (match es1 with
        | [Expr.DecrementCount 1, Expr.OffsetOp o] => Except.ok (Expr.OffsetMakeZeroOp o)
        | [Expr.OffsetOp o, Expr.DecrementCount 1] => Except.ok (Expr.OffsetMakeZeroOp o)
        | _ => (Except.ok (Expr.Loop es1) : Except ParseErr Expr)) = .error e := h
      split at h <;> cases h
    | .IncrementCount n, h => cases h
    | .DecrementCount n, h => cases h
    | .MoveLeftCount n, h => cases h
    | .MoveRightCount n, h => cases h
    | .Input, h => cases h
    | .Output, h => cases h
    | .MakeZero, h => cases h
    | .InfiniteLoop es1, h => cases h
    | .JumpOut x, h => cases h
    | .OffsetOp o, h => cases h
    | .OffsetMakeZeroOp o, h => cases h

theorem runP_append :
    ∀ (xs ys : List (Nat × Token)) (st : List (List Expr)) (cur : List Expr),
      runP (xs ++ ys) st cur =
        match runP xs st cur with
        | .error e => .error e
        | .ok (st1, cur1) => runP ys st1 cur1 := by
  intro xs
  induction xs with
  | nil => intro ys st cur; rfl
  | cons p rest ih =>
    intro ys st cur
    obtain ⟨j, t⟩ := p
    cases t
    case BracketOpen => exact ih ys (cur :: st) []
    case BracketClose =>
      match st with
      | [] => rfl
      | outer :: st1 =>
        have hl : runP (((j, Token.BracketClose) :: rest) ++ ys) (outer :: st1) cur =
            (match optimize cur.reverse with
             | .error e => (.error e : Except ParseErr (List (List Expr) × List Expr))
             | .ok e => runP (rest ++ ys) st1 (e :: outer)) := rfl
        have hr : runP ((j, Token.BracketClose) :: rest) (outer :: st1) cur =
            (match optimize cur.reverse with
             | .error e => (.error e : Except ParseErr (List (List Expr) × List Expr))
             | .ok e => runP rest st1 (e :: outer)) := rfl
        rw [hl, hr]
        cases hop : optimize cur.reverse with
        | error er => rfl
        | ok e => exact ih ys st1 (e :: outer)
    all_goals exact ih ys st (pushOp _ cur)

theorem runP_close_err :
    ∀ (en : List (Nat × Token)) (st : List (List Expr)) (cur : List Expr) (i : Nat),
      runP en st cur = .error (.unmatchedClose i) →
      ∃ pre suf cur1, en = pre ++ (i, Token.BracketClose) :: suf ∧
        runP pre st cur = .ok ([], cur1) := by
  intro en
  induction en with
  | nil => intro st cur i h; cases h
  | cons p rest ih =>
    intro st cur i h
    obtain ⟨j, t⟩ := p
    cases t
    case BracketOpen =>
      obtain ⟨pre, suf, cur1, heq, hrun⟩ := ih (cur :: st) [] i h
      exact ⟨(j, .BracketOpen) :: pre, suf, cur1, by rw [heq, List.cons_append], hrun⟩
    case BracketClose =>
      match st, h with
      | [], h =>
        replace h : (Except.error (ParseErr.unmatchedClose j) :
            Except ParseErr (List (List Expr) × List Expr)) = .error (.unmatchedClose i) := h
        simp only [Except.error.injEq, ParseErr.unmatchedClose.injEq] at h
        subst h
        exact ⟨[], rest, cur, rfl, rfl⟩
      | outer :: st1, h =>
        replace h : (match optimize cur.reverse with
            | .error e => (.error e : Except ParseErr (List (List Expr) × List Expr))
            | .ok e => runP rest st1 (e :: outer)) = .error (.unmatchedClose i) := h
        cases hop : optimize cur.reverse with
        | error er =>
          rw [hop] at h
          cases h
          cases optimize_err cur.reverse _ hop
        | ok e =>
          rw [hop] at h
          obtain ⟨pre, suf, cur1, heq, hrun⟩ := ih st1 (e :: outer) i h
          refine ⟨(j, .BracketClose) :: pre, suf, cur1, by rw [heq, List.cons_append], ?_⟩
          show (match optimize cur.reverse with
              | .error e => (.error e : Except ParseErr (List (List Expr) × List Expr))
              | .ok e => runP pre st1 (e :: outer)) = _
          rw [hop]
          exact hrun
    all_goals
      obtain ⟨pre, suf, cur1, heq, hrun⟩ := ih st (pushOp _ cur) i h
      first
        | exact ⟨(j, .Plus) :: pre, suf, cur1, by rw [heq, List.cons_append], hrun⟩
        | exact ⟨(j, .Minus) :: pre, suf, cur1, by rw [heq, List.cons_append], hrun⟩
        | exact ⟨(j, .Left) :: pre, suf, cur1, by rw [heq, List.cons_append], hrun⟩
        | exact ⟨(j, .Right) :: pre, suf, cur1, by rw [heq, List.cons_append], hrun⟩
        | exact ⟨(j, .Dot) :: pre, suf, cur1, by rw [heq, List.cons_append], hrun⟩
        | exact ⟨(j, .Comma) :: pre, suf, cur1, by rw [heq, List.cons_append], hrun⟩
        | exact ⟨(j, .Ignore) :: pre, suf, cur1, by rw [heq, List.cons_append], hrun⟩

theorem runP_no_open :
    ∀ (en : List (Nat × Token)) (st : List (List Expr)) (cur : List Expr),
      runP en st cur ≠ .error .unmatchedOpen := by
  intro en
  induction en with
  | nil => intro st cur h; cases h
  | cons p rest ih =>
    intro st cur h
    obtain ⟨j, t⟩ := p
    cases t
    case BracketOpen => exact ih (cur :: st) [] h
    case BracketClose =>
      match st, h with
      | [], h => cases h
      | outer :: st1, h =>
        replace h : (match optimize cur.reverse with
            | .error e => (.error e : Except ParseErr (List (List Expr) × List Expr))
            | .ok e => runP rest st1 (e :: outer)) = .error .unmatchedOpen := h
        cases hop : optimize cur.reverse with
        | error er =>
          rw [hop] at h
          cases h
          cases optimize_err cur.reverse _ hop
        | ok e =>
          rw [hop] at h
          exact ih st1 (e :: outer) h
    all_goals exact ih st (pushOp _ cur) h

/-- C8: the builder fails with the "Unmatched closing bracket at i" panic
exactly when the scan, started from the empty scope stack, consumes the
enumerated token `(i, BracketClose)` with the stack empty (so source `]`
alone reports position 0); it fails with the "Unmatched opening bracket"
panic exactly when the scan consumes all input and leaves a non-empty
stack; and any builder failure reaches `Interpreter::run` before the
executor ever touches a tape. -/
theorem bracket_errors :
    (∀ (ts : List Token) (i : Nat),
      Expr.fromTokens ts = .error (.unmatchedClose i) ↔
        ∃ pre suf cur1, ts.enum = pre ++ (i, Token.BracketClose) :: suf ∧
          runP pre [] [] = .ok ([], cur1)) ∧
    (∀ ts : List Token,
      Expr.fromTokens ts = .error .unmatchedOpen ↔
        ∃ stack cur, runP ts.enum [] [] = .ok (stack, cur) ∧ stack ≠ []) ∧
    Expr.fromTokens [Token.BracketClose] = .error (.unmatchedClose 0) ∧
    (∀ (ts : List Token) (e : ParseErr) (fuel : Nat),
      Expr.fromTokens ts = .error e → runProgram fuel ts = .error (.inl e)) := by
  refine ⟨?_, ?_, rfl, ?_⟩
  · intro ts i
    constructor
    · intro h
      rw [Expr.fromTokens] at h
      cases hrp : runP ts.enum [] [] with
      | error er =>
        rw [hrp] at h
        cases h
        exact runP_close_err ts.enum [] [] i hrp
      | ok r =>
        obtain ⟨stack1, cur1⟩ := r
        rw [hrp] at h
        replace h : (if stack1.isEmpty then Except.ok cur1.reverse
            else Except.error ParseErr.unmatchedOpen) = .error (.unmatchedClose i) := h
        split at h <;> cases h
    · rintro ⟨pre, suf, cur1, heq, hrun⟩
      rw [Expr.fromTokens, heq, runP_append, hrun]
      rfl
  · intro ts
    constructor
    · intro h
      rw [Expr.fromTokens] at h
      cases hrp : runP ts.enum [] [] with
      | error er =>
        rw [hrp] at h
        cases h
        exact absurd hrp (runP_no_open ts.enum [] [])
      | ok r =>
        obtain ⟨stack1, cur1⟩ := r
        rw [hrp] at h
        replace h : (if stack1.isEmpty then Except.ok cur1.reverse
            else Except.error ParseErr.unmatchedOpen) = .error .unmatchedOpen := h
        split at h
        · cases h
        · rename_i hne
          exact ⟨stack1, cur1, rfl, by simpa [List.isEmpty_iff] using hne⟩
    · rintro ⟨stack, cur, hrp, hne⟩
      rw [Expr.fromTokens, hrp]
      replace hne : stack.isEmpty = false := by
        cases stack
        · exact absurd rfl hne
        · rfl
      show (if stack.isEmpty then Except.ok cur.reverse
          else Except.error ParseErr.unmatchedOpen) = _
      rw [hne]
      rfl
  · intro ts e fuel h
    rw [runProgram, h]

end BF

/-! # Theorems about the library variant (`src/lib.rs`) -/

namespace BFLib

theorem neutralScan_all_simple (es : List Expr) :
    ∀ acc : Int, es.all isSimpleOp = true →
      neutralScan acc es = (false, acc + netMove es) := by
  induction es with
  | nil => intro acc h; simp [neutralScan, netMove]
  | cons e es ih =>
    intro acc h
    simp only [List.all_cons, Bool.and_eq_true] at h
    cases e <;> simp_all [isSimpleOp, neutralScan, netMove] <;> ring

/-- C2: `Interpreter::optimize` classifies every body of length at least 3
that contains only Increment/Decrement/MoveLeft/MoveRight nodes and whose
signed move sum is zero as a MultiplyOnce (`one_time = true`) loop,
keeping the body unchanged. -/
theorem multiply_once_classified (es : List Expr) (h3 : 3 ≤ es.length)
    (hs : es.all isSimpleOp = true) (hn : netMove es = 0) :
    libOptimize es = .ok (.Loop es true) := by
  match es, h3 with
  | a :: b :: c :: rest, _ =>
    have hscan : neutralScan 0 (a :: b :: c :: rest) = (false, 0) := by
      rw [neutralScan_all_simple _ _ hs, hn]
      rfl
    rw [libOptimize]
    simp only [libOptimizeGo, hscan]
    rfl

/-- Witness for C2: the body of `[->+>+<<]` is classified MultiplyOnce. -/
theorem multiply_once_classified_witness :
    libOptimize [.DecrementCount 1, .MoveRightCount 1, .IncrementCount 1,
      .MoveRightCount 1, .IncrementCount 1, .MoveLeftCount 2] =
      .ok (.Loop [.DecrementCount 1, .MoveRightCount 1, .IncrementCount 1,
        .MoveRightCount 1, .IncrementCount 1, .MoveLeftCount 2] true) :=
  multiply_once_classified _ (by decide) (by decide) (by decide)

theorem addK_none (cells : List Nat) (i k : Nat) (h : cells[i]? = none) :
    addK cells i k = cells := by
  unfold addK
  rw [h]

theorem addK_some (cells : List Nat) (i k v : Nat) (h : cells[i]? = some v) :
    addK cells i k = cells.set i ((v + k) % 256) := by
  unfold addK
  rw [h]

theorem addK_length (cells : List Nat) (i k : Nat) : (addK cells i k).length = cells.length := by
  cases h : cells[i]? with
  | none => rw [addK_none cells i k h]
  | some v => rw [addK_some cells i k v h]; simp

theorem getElem?_lt {α : Type} (l : List α) (i : Nat) (a : α) (h : l[i]? = some a) :
    i < l.length := by
  by_contra hc
  rw [List.getElem?_eq_none (by omega)] at h
  cases h

theorem addK_congr (cells : List Nat) (i : Nat) (k1 k2 : Nat) (h : k1 % 256 = k2 % 256) :
    addK cells i k1 = addK cells i k2 := by
  cases hv : cells[i]? with
  | none => rw [addK_none _ _ _ hv, addK_none _ _ _ hv]
  | some v =>
    rw [addK_some _ _ _ _ hv, addK_some _ _ _ _ hv]
    have harith : (v + k1) % 256 = (v + k2) % 256 := by omega
    rw [harith]

theorem addK_addK_same (cells : List Nat) (i k1 k2 : Nat) :
    addK (addK cells i k2) i k1 = addK cells i (k1 + k2) := by
  cases hv : cells[i]? with
  | none => rw [addK_none _ _ _ hv, addK_none _ _ _ hv, addK_none _ _ _ hv]
  | some v =>
    have hp : i < cells.length := getElem?_lt _ _ _ hv
    rw [addK_some _ _ _ _ hv, addK_some _ _ _ _ (by rw [List.getElem?_set_self hp]),
      addK_some _ _ _ _ hv, List.set_set]
    have harith : ((v + k2) % 256 + k1) % 256 = (v + (k1 + k2)) % 256 := by omega
    rw [harith]

theorem addK_comm (cells : List Nat) (i j k1 k2 : Nat) :
    addK (addK cells j k2) i k1 = addK (addK cells i k1) j k2 := by
  by_cases hij : i = j
  · subst hij
    rw [addK_addK_same, addK_addK_same, Nat.add_comm]
  · cases hvj : cells[j]? with
    | none =>
      rw [addK_none _ _ _ hvj]
      cases hvi : cells[i]? with
      | none => rw [addK_none _ _ _ hvi, addK_none _ _ _ hvj]
      | some vi =>
        rw [addK_some _ _ _ _ hvi,
          addK_none _ _ _ (by rw [List.getElem?_set_ne (by omega), hvj])]
    | some vj =>
      have hpj : j < cells.length := getElem?_lt _ _ _ hvj
      rw [addK_some _ _ _ _ hvj]
      cases hvi : cells[i]? with
      | none =>
        rw [addK_none _ _ _ (by rw [List.getElem?_set_ne (by omega), hvi]),
          addK_none _ _ _ hvi, addK_some _ _ _ _ hvj]
      | some vi =>
        rw [addK_some _ _ _ _ (by rw [List.getElem?_set_ne (by omega), hvi]),
          addK_some _ _ _ _ hvi,
          addK_some _ _ _ _ (by rw [List.getElem?_set_ne (by omega), hvj]),
          List.set_comm _ _ _ (by omega)]
theorem applyScaled_addK (s : Nat) (es : List Expr) :
    ∀ (p q d : Nat) (cells : List Nat),
      applyScaled s es p (addK cells q d) = addK (applyScaled s es p cells) q d := by
  induction es with
  | nil => intro p q d cells; rfl
  | cons e es ih =>
    intro p q d cells
    cases e with
    | IncrementCount c =>
      simp only [applyScaled]
      rw [addK_comm]
      exact ih _ _ _ _
    | DecrementCount c =>
      simp only [applyScaled]
      rw [addK_comm]
      exact ih _ _ _ _
    | MoveLeftCount c => simp only [applyScaled]; exact ih _ _ _ _
    | MoveRightCount c => simp only [applyScaled]; exact ih _ _ _ _
    | Loop es1 ot => simp only [applyScaled]; exact ih _ _ _ _
    | Input => simp only [applyScaled]; exact ih _ _ _ _
    | Output => simp only [applyScaled]; exact ih _ _ _ _
    | MakeZero => simp only [applyScaled]; exact ih _ _ _ _
    | JumpOut e1 => simp only [applyScaled]; exact ih _ _ _ _
    | OffsetOp o v => simp only [applyScaled]; exact ih _ _ _ _
    | OffsetMakeZeroOp o v => simp only [applyScaled]; exact ih _ _ _ _


theorem applyScaled_length (s : Nat) (es : List Expr) :
    ∀ (p : Nat) (cells : List Nat), (applyScaled s es p cells).length = cells.length := by
  induction es with
  | nil => intro p cells; rfl
  | cons e es ih =>
    intro p cells
    cases e <;> simp only [applyScaled] <;> rw [ih] <;> try rw [addK_length]

theorem applyScaled_inc (s c : Nat) (es : List Expr) (p : Nat) (cells : List Nat) :
    applyScaled s (.IncrementCount c :: es) p cells =
      addK (applyScaled s es p cells) p (c * s % 256) := by
  simp only [applyScaled]
  rw [applyScaled_addK]

theorem applyScaled_dec (s c : Nat) (es : List Expr) (p : Nat) (cells : List Nat) :
    applyScaled s (.DecrementCount c :: es) p cells =
      addK (applyScaled s es p cells) p (256 - c * s % 256) := by
  simp only [applyScaled]
  rw [applyScaled_addK]

theorem applyScaled_add (a b : Nat) (es : List Expr) :
    ∀ (p : Nat) (cells : List Nat),
      applyScaled (a + b) es p cells = applyScaled a es p (applyScaled b es p cells) := by
  induction es with
  | nil => intro p cells; rfl
  | cons e es ih =>
    intro p cells
    cases e with
    | IncrementCount c =>
      rw [applyScaled_inc, applyScaled_inc, applyScaled_inc, applyScaled_addK,
        addK_addK_same, ← ih]
      apply addK_congr
      have hc : c * a + c * b = c * (a + b) := by ring
      omega
    | DecrementCount c =>
      rw [applyScaled_dec, applyScaled_dec, applyScaled_dec, applyScaled_addK,
        addK_addK_same, ← ih]
      apply addK_congr
      have hc : c * a + c * b = c * (a + b) := by ring
      omega
    | MoveLeftCount c => simp only [applyScaled]; exact ih _ _
    | MoveRightCount c => simp only [applyScaled]; exact ih _ _
    | Loop es1 ot => simp only [applyScaled]; exact ih _ _
    | Input => simp only [applyScaled]; exact ih _ _
    | Output => simp only [applyScaled]; exact ih _ _
    | MakeZero => simp only [applyScaled]; exact ih _ _
    | JumpOut e1 => simp only [applyScaled]; exact ih _ _
    | OffsetOp o v => simp only [applyScaled]; exact ih _ _
    | OffsetMakeZeroOp o v => simp only [applyScaled]; exact ih _ _
theorem foldl_runEffect_eq (f : Nat) : ∀ (es : List Expr) (m : Memory),
    es.all isSimpleOp = true →
      es.foldlM (fun m e => runEffect (f + 1) e m) m = runScaledPass 1 es m := by
  intro es
  induction es with
  | nil => intro m _; rfl
  | cons e es ih =>
    intro m hs
    rw [List.all_cons, Bool.and_eq_true] at hs
    obtain ⟨he, hrest⟩ := hs
    rw [List.foldlM_cons]
    cases e with
    | IncrementCount c =>
      show m.incrementCell c >>= _ = _
      simp only [runScaledPass, Nat.mul_one]
      cases hres : m.incrementCell c with
      | error er => rfl
      | ok m1 => exact ih m1 hrest
    | DecrementCount c =>
      show m.decrementCell c >>= _ = _
      simp only [runScaledPass, Nat.mul_one]
      cases hres : m.decrementCell c with
      | error er => rfl
      | ok m1 => exact ih m1 hrest
    | MoveLeftCount c =>
      show m.movePointerLeft c >>= _ = _
      simp only [runScaledPass]
      cases hres : m.movePointerLeft c with
      | error er => rfl
      | ok m1 => exact ih m1 hrest
    | MoveRightCount c =>
      show (Except.ok (m.movePointerRight c) : Except RErr Memory) >>= _ = _
      simp only [runScaledPass]
      exact ih (m.movePointerRight c) hrest
    | Loop es1 ot => simp [isSimpleOp] at he
    | Input => simp [isSimpleOp] at he
    | Output => simp [isSimpleOp] at he
    | MakeZero => simp [isSimpleOp] at he
    | JumpOut e1 => simp [isSimpleOp] at he
    | OffsetOp o v => simp [isSimpleOp] at he
    | OffsetMakeZeroOp o v => simp [isSimpleOp] at he

theorem runScaledPass_eq (times : Nat) : ∀ (es : List Expr) (m : Memory),
    es.all isSimpleOp = true →
      runScaledPass times es m =
        (simTraj m.cells.length es m.pointer).map
          (fun p1 => { m with cells := applyScaled times es m.pointer m.cells, pointer := p1 }) := by
  intro es
  induction es with
  | nil => intro m _; rfl
  | cons e es ih =>
    intro m hs
    rw [List.all_cons, Bool.and_eq_true] at hs
    obtain ⟨he, hrest⟩ := hs
    cases e with
    | IncrementCount c =>
      cases hcell : m.cells[m.pointer]? with
      | none =>
        have hplen : m.cells.length ≤ m.pointer := by
          by_contra hlt
          rw [List.getElem?_eq_getElem (by omega)] at hcell
          exact Option.noConfusion hcell
        have hstep : runScaledPass times (.IncrementCount c :: es) m = .error .indexOOB := by
          simp only [runScaledPass, Memory.incrementCell, hcell]
        have htraj : simTraj m.cells.length (.IncrementCount c :: es) m.pointer =
            .error .indexOOB := by
          simp only [simTraj, simStep]
          rw [if_neg (by omega)]
        rw [hstep, htraj]
        rfl
      | some v =>
        have hplen : m.pointer < m.cells.length := getElem?_lt _ _ _ hcell
        have hstep : runScaledPass times (.IncrementCount c :: es) m =
            runScaledPass times es
              { m with cells := m.cells.set m.pointer (wrapAdd v (c * times)) } := by
          simp only [runScaledPass, Memory.incrementCell, hcell]
        have htraj : simTraj m.cells.length (.IncrementCount c :: es) m.pointer =
            simTraj m.cells.length es m.pointer := by
          simp only [simTraj, simStep]
          rw [if_pos hplen]
        have hset : addK m.cells m.pointer (c * times % 256) =
            m.cells.set m.pointer (wrapAdd v (c * times)) := by
          rw [addK_some _ _ _ _ hcell]
          rfl
        rw [hstep, ih _ hrest, htraj]
        simp only [applyScaled, List.length_set, hset]
    | DecrementCount c =>
      cases hcell : m.cells[m.pointer]? with
      | none =>
        have hplen : m.cells.length ≤ m.pointer := by
          by_contra hlt
          rw [List.getElem?_eq_getElem (by omega)] at hcell
          exact Option.noConfusion hcell
        have hstep : runScaledPass times (.DecrementCount c :: es) m = .error .indexOOB := by
          simp only [runScaledPass, Memory.decrementCell, hcell]
        have htraj : simTraj m.cells.length (.DecrementCount c :: es) m.pointer =
            .error .indexOOB := by
          simp only [simTraj, simStep]
          rw [if_neg (by omega)]
        rw [hstep, htraj]
        rfl
      | some v =>
        have hplen : m.pointer < m.cells.length := getElem?_lt _ _ _ hcell
        have hstep : runScaledPass times (.DecrementCount c :: es) m =
            runScaledPass times es
              { m with cells := m.cells.set m.pointer (wrapSub v (c * times)) } := by
          simp only [runScaledPass, Memory.decrementCell, hcell]
        have htraj : simTraj m.cells.length (.DecrementCount c :: es) m.pointer =
            simTraj m.cells.length es m.pointer := by
          simp only [simTraj, simStep]
          rw [if_pos hplen]
        have hset : addK m.cells m.pointer (256 - c * times % 256) =
            m.cells.set m.pointer (wrapSub v (c * times)) := by
          rw [addK_some _ _ _ _ hcell]
          rfl
        rw [hstep, ih _ hrest, htraj]
        simp only [applyScaled, List.length_set, hset]
    | MoveLeftCount c =>
      by_cases hpl : m.pointer < 1
      · have hstep : runScaledPass times (.MoveLeftCount c :: es) m =
            .error .pointerUnderflow := by
          simp only [runScaledPass, Memory.movePointerLeft]
          rw [if_pos hpl]
        have htraj : simTraj m.cells.length (.MoveLeftCount c :: es) m.pointer =
            .error .pointerUnderflow := by
          simp only [simTraj, simStep]
          rw [if_pos hpl]
        rw [hstep, htraj]
        rfl
      · have hstep : runScaledPass times (.MoveLeftCount c :: es) m =
            runScaledPass times es { m with pointer := usizeSub m.pointer c } := by
          simp only [runScaledPass, Memory.movePointerLeft]
          rw [if_neg hpl]
        have htraj : simTraj m.cells.length (.MoveLeftCount c :: es) m.pointer =
            simTraj m.cells.length es (usizeSub m.pointer c) := by
          simp only [simTraj, simStep]
          rw [if_neg hpl]
        rw [hstep, ih _ hrest, htraj]
        rfl
    | MoveRightCount c =>
      have hstep : runScaledPass times (.MoveRightCount c :: es) m =
          runScaledPass times es { m with pointer := usizeAdd m.pointer c } := rfl
      have htraj : simTraj m.cells.length (.MoveRightCount c :: es) m.pointer =
          simTraj m.cells.length es (usizeAdd m.pointer c) := rfl
      rw [hstep, ih _ hrest, htraj]
      rfl
    | Loop es1 ot => simp [isSimpleOp] at he
    | Input => simp [isSimpleOp] at he
    | Output => simp [isSimpleOp] at he
    | MakeZero => simp [isSimpleOp] at he
    | JumpOut e1 => simp [isSimpleOp] at he
    | OffsetOp o v => simp [isSimpleOp] at he
    | OffsetMakeZeroOp o v => simp [isSimpleOp] at he
theorem simTraj_net (len : Nat) : ∀ (es : List Expr) (p p1 : Nat),
    simTraj len es p = .ok p1 → p < USIZE →
      p1 < USIZE ∧ (p1 : Int) = ((p : Int) + netMove es) % (USIZE : Int) := by
  intro es
  induction es with
  | nil =>
    intro p p1 h hp
    replace h : (Except.ok p : Except RErr Nat) = .ok p1 := h
    injection h with h
    subst h
    refine ⟨hp, ?_⟩
    simp only [netMove]
    have hU : (USIZE : Int) = 18446744073709551616 := rfl
    have hp1 : p < 18446744073709551616 := hp
    rw [hU]
    omega
  | cons e es ih =>
    intro p p1 h hp
    cases e with
    | IncrementCount c =>
      simp only [simTraj, simStep] at h
      by_cases hpl : p < len
      · rw [if_pos hpl] at h
        replace h : simTraj len es p = .ok p1 := h
        obtain ⟨h1, h2⟩ := ih p p1 h hp
        exact ⟨h1, by rw [h2]; simp only [netMove]⟩
      · rw [if_neg hpl] at h
        replace h : (Except.error RErr.indexOOB : Except RErr Nat) = .ok p1 := h
        injection h
    | DecrementCount c =>
      simp only [simTraj, simStep] at h
      by_cases hpl : p < len
      · rw [if_pos hpl] at h
        replace h : simTraj len es p = .ok p1 := h
        obtain ⟨h1, h2⟩ := ih p p1 h hp
        exact ⟨h1, by rw [h2]; simp only [netMove]⟩
      · rw [if_neg hpl] at h
        replace h : (Except.error RErr.indexOOB : Except RErr Nat) = .ok p1 := h
        injection h
    | MoveLeftCount c =>
      simp only [simTraj, simStep] at h
      by_cases hpl : p < 1
      · rw [if_pos hpl] at h
        replace h : (Except.error RErr.pointerUnderflow : Except RErr Nat) = .ok p1 := h
        injection h
      · rw [if_neg hpl] at h
        replace h : simTraj len es (usizeSub p c) = .ok p1 := h
        have hUpos : 0 < USIZE := by norm_num [USIZE]
        have hsub : usizeSub p c < USIZE := Nat.mod_lt _ hUpos
        obtain ⟨h1, h2⟩ := ih (usizeSub p c) p1 h hsub
        refine ⟨h1, ?_⟩
        rw [h2]
        simp only [netMove]
        have hcast : ((usizeSub p c : Nat) : Int) =
            ((p : Int) + ((USIZE : Int) - (c : Int) % (USIZE : Int))) % (USIZE : Int) := by
          unfold usizeSub
          push_cast [Nat.cast_sub (Nat.le_of_lt (Nat.mod_lt c hUpos))]
          rfl
        rw [hcast]
        have hU : (USIZE : Int) = 18446744073709551616 := rfl
        rw [hU]
        generalize netMove es = n
        omega
    | MoveRightCount c =>
      simp only [simTraj, simStep] at h
      replace h : simTraj len es (usizeAdd p c) = .ok p1 := h
      have hUpos : 0 < USIZE := by norm_num [USIZE]
      have hadd : usizeAdd p c < USIZE := Nat.mod_lt _ hUpos
      obtain ⟨h1, h2⟩ := ih (usizeAdd p c) p1 h hadd
      refine ⟨h1, ?_⟩
      rw [h2]
      simp only [netMove]
      have hcast : ((usizeAdd p c : Nat) : Int) =
          ((p : Int) + (c : Int)) % (USIZE : Int) := by
        unfold usizeAdd
        push_cast
        rfl
      rw [hcast]
      have hU : (USIZE : Int) = 18446744073709551616 := rfl
      rw [hU]
      generalize netMove es = n
      omega
    | Loop es1 ot =>
      simp only [simTraj, simStep] at h
      replace h : (Except.error RErr.unreachablePanic : Except RErr Nat) = .ok p1 := h
      injection h
    | Input =>
      simp only [simTraj, simStep] at h
      replace h : (Except.error RErr.unreachablePanic : Except RErr Nat) = .ok p1 := h
      injection h
    | Output =>
      simp only [simTraj, simStep] at h
      replace h : (Except.error RErr.unreachablePanic : Except RErr Nat) = .ok p1 := h
      injection h
    | MakeZero =>
      simp only [simTraj, simStep] at h
      replace h : (Except.error RErr.unreachablePanic : Except RErr Nat) = .ok p1 := h
      injection h
    | JumpOut e1 =>
      simp only [simTraj, simStep] at h
      replace h : (Except.error RErr.unreachablePanic : Except RErr Nat) = .ok p1 := h
      injection h
    | OffsetOp o v =>
      simp only [simTraj, simStep] at h
      replace h : (Except.error RErr.unreachablePanic : Except RErr Nat) = .ok p1 := h
      injection h
    | OffsetMakeZeroOp o v =>
      simp only [simTraj, simStep] at h
      replace h : (Except.error RErr.unreachablePanic : Except RErr Nat) = .ok p1 := h
      injection h
theorem runNTimes_ok (f : Nat) (es : List Expr) (hs : es.all isSimpleOp = true) :
    ∀ (k : Nat) (m : Memory),
      simTraj m.cells.length es m.pointer = .ok m.pointer →
      runNTimes (f + 1) es (k + 1) m =
        .ok { m with cells := applyScaled (k + 1) es m.pointer m.cells } := by
  intro k
  induction k with
  | zero =>
    intro m htr
    have hpass : es.foldlM (fun m e => runEffect (f + 1) e m) m =
        .ok { m with cells := applyScaled 1 es m.pointer m.cells, pointer := m.pointer } := by
      rw [foldl_runEffect_eq f es m hs, runScaledPass_eq 1 es m hs, htr]
      rfl
    show (match es.foldlM (fun m e => runEffect (f + 1) e m) m with
          | .error er => (.error er : Except RErr Memory)
          | .ok m1 => runNTimes (f + 1) es 0 m1) = _
    rw [hpass]
    rfl
  | succ k ih =>
    intro m htr
    have hpass : es.foldlM (fun m e => runEffect (f + 1) e m) m =
        .ok { m with cells := applyScaled 1 es m.pointer m.cells, pointer := m.pointer } := by
      rw [foldl_runEffect_eq f es m hs, runScaledPass_eq 1 es m hs, htr]
      rfl
    show (match es.foldlM (fun m e => runEffect (f + 1) e m) m with
          | .error er => (.error er : Except RErr Memory)
          | .ok m1 => runNTimes (f + 1) es (k + 1) m1) = _
    rw [hpass]
    have htr1 : simTraj
        ({ m with cells := applyScaled 1 es m.pointer m.cells, pointer := m.pointer } : Memory).cells.length
        es
        ({ m with cells := applyScaled 1 es m.pointer m.cells, pointer := m.pointer } : Memory).pointer =
        .ok ({ m with cells := applyScaled 1 es m.pointer m.cells, pointer := m.pointer } : Memory).pointer := by
      show simTraj (applyScaled 1 es m.pointer m.cells).length es m.pointer = .ok m.pointer
      rw [applyScaled_length]
      exact htr
    show runNTimes (f + 1) es (k + 1)
        { m with cells := applyScaled 1 es m.pointer m.cells, pointer := m.pointer } = _
    rw [ih _ htr1]
    rw [applyScaled_add (k + 1) 1 es m.pointer m.cells]
/-- C1: for a loop body drawn only from Increment/Decrement/MoveLeft/MoveRight
nodes whose signed move counts sum to zero (the MultiplyOnce precondition of
`Interpreter::optimize`), the `one_time` branch of `Expr::run_effect` — read
the gating cell once as `k`, run a single pass with every arithmetic delta
scaled by `k` and every move applied literally — returns exactly the result
of re-running the body `k` times the way the generic loop would, for every
starting memory, including agreement on which panic fires when one does. -/
theorem multiply_once_equiv (es : List Expr)
    (hs : es.all isSimpleOp = true) (hn : netMove es = 0)
    (fuel k : Nat) (hf : 1 ≤ fuel) (m : Memory)
    (hp : m.pointer < USIZE) (hv : m.val? = some k) :
    runEffect fuel (.Loop es true) m = runNTimes fuel es k m := by
  obtain ⟨f, rfl⟩ : ∃ f, fuel = f + 1 := ⟨fuel - 1, by omega⟩
  have hloop : runEffect (f + 1) (.Loop es true) m =
      (match m.val? with
       | none => (.error .indexOOB : Except RErr Memory)
       | some 0 => .ok m
       | some v => runScaledPass v es m) := rfl
  rw [hloop, hv]
  cases k with
  | zero => rfl
  | succ v =>
    show runScaledPass (v + 1) es m = _
    rw [runScaledPass_eq (v + 1) es m hs]
    cases htr : simTraj m.cells.length es m.pointer with
    | error er =>
      have hpass : es.foldlM (fun m e => runEffect (f + 1) e m) m = .error er := by
        rw [foldl_runEffect_eq f es m hs, runScaledPass_eq 1 es m hs, htr]
        rfl
      show (Except.error er : Except RErr Memory) =
        (match es.foldlM (fun m e => runEffect (f + 1) e m) m with
         | .error er => (.error er : Except RErr Memory)
         | .ok m1 => runNTimes (f + 1) es v m1)
      rw [hpass]
    | ok p1 =>
      have hnet := simTraj_net m.cells.length es m.pointer p1 htr hp
      have hp1 : p1 = m.pointer := by
        obtain ⟨h1, h2⟩ := hnet
        rw [hn] at h2
        have hU : (USIZE : Int) = 18446744073709551616 := rfl
        rw [hU] at h2
        have hpn : m.pointer < 18446744073709551616 := hp
        have hq : p1 < 18446744073709551616 := h1
        omega
      subst hp1
      rw [runNTimes_ok f es hs v m htr]
      rfl
/-- The MultiplyOnce equivalence at a concrete pointer-neutral body
`[-  >  ++  <]` on tape `[3, 5, 0]` with gating value `3`. -/
theorem multiply_once_equiv_witness :
    runEffect 5
        (.Loop [Expr.DecrementCount 1, Expr.MoveRightCount 1,
                Expr.IncrementCount 2, Expr.MoveLeftCount 1] true)
        ⟨[3, 5, 0], 0, [], [], []⟩ =
      runNTimes 5
        [Expr.DecrementCount 1, Expr.MoveRightCount 1,
         Expr.IncrementCount 2, Expr.MoveLeftCount 1] 3
        ⟨[3, 5, 0], 0, [], [], []⟩ :=
  multiply_once_equiv _ (by decide) (by decide) 5 3 (by decide) _ (by decide) (by decide)

end BFLib
